import Mathlib

set_option maxRecDepth 100000

/-!
# Verification of the multi-pattern signature scanner

Shallow embedding of the detection core of the COMP3821 NIDS project:
the Aho–Corasick, Wu–Manber (deterministic and Bloom-filtered),
Set–Horspool and Boyer–Moore engines, together with their preprocessing.

Bytes are modelled as `Nat` (values `< 256` where it matters), byte buffers
and patterns as `List Nat`.  Patterns are C strings: their byte lists carry
no `0` byte, and `strncmp`-style comparison is embedded with its
NUL-termination semantics.  32-bit unsigned arithmetic is made explicit
with `% 2^32`.  Loops whose index advances by a data-dependent amount are
embedded with an explicit fuel argument that dominates the number of
iterations (each iteration advances the index by at least one).
-/

namespace Scanner

/-- `tolower` on a byte in the C locale: fold ASCII `A`–`Z` to `a`–`z`. -/
def toLowerChar (c : Nat) : Nat :=
  if 65 ≤ c ∧ c ≤ 90 then c + 32 else c

/-- `toupper` on a byte in the C locale. -/
def toUpperChar (c : Nat) : Nat :=
  if 97 ≤ c ∧ c ≤ 122 then c - 32 else c

/-- `isalpha` on a byte in the C locale. -/
def isAlphaChar (c : Nat) : Bool :=
  (65 ≤ c ∧ c ≤ 90) ∨ (97 ≤ c ∧ c ≤ 122)

/-- `isupper` on a byte in the C locale. -/
def isUpperChar (c : Nat) : Bool :=
  65 ≤ c ∧ c ≤ 90

/-- Pointwise array write: the store `table[k] = v` on a table modelled
as a total function. -/
def upd {α : Type} (f : Nat → α) (k : Nat) (v : α) : Nat → α :=
  fun x => if x = k then v else f x

theorem upd_same {α : Type} (f : Nat → α) (k : Nat) (v : α) : upd f k v k = v := by
  simp [upd]

theorem upd_other {α : Type} (f : Nat → α) (k : Nat) (v : α) {x : Nat}
    (h : x ≠ k) : upd f k v x = f x := by
  simp [upd, h]

/-- 32-bit FNV-1a over a byte sequence, from `fnv1a` in `bloom.c`:
`h = (h ^ s[i]) * 0x01000193` in `uint32_t` arithmetic. -/
def fnv1a (s : List Nat) (seed : Nat) : Nat :=
  s.foldl (fun h c => ((h ^^^ c) * 0x01000193) % 2 ^ 32) seed

/-- `hash_prefix` from the Wu–Manber preprocessing: FNV-1a with offset basis
`0x811C9DC5` over the first `min len B` bytes of `s`. -/
def hash_prefix (s : List Nat) (len B : Nat) : Nat :=
  fnv1a (s.take (min len B)) 0x811C9DC5

/-- `block_key` from the Wu–Manber preprocessing: little-endian packing of a
`B`-byte block, reading `0` past the available bytes of `s`
(`v = (i < avail) ? s[i] : 0`).  Here `s` is the memory from the block
pointer on, so `avail` is `s.length`. -/
def block_key (s : List Nat) (B : Nat) : Nat :=
  (List.range B).foldl (fun k i => k ||| (s.getD i 0 <<< (8 * i))) 0

/-- C `strncmp(a, b, n) == 0` where `a` and `b` are the byte sequences from
the two pointers on and reading past the end of either list yields the NUL
terminator `0`: compare byte by byte, stop at the first difference or at a
common NUL, for at most `n` bytes. -/
def strncmpEq (a b : List Nat) : Nat → Bool
  | 0 => true
  | n + 1 =>
    match a, b with
    | [], [] => true
    | [], y :: _ => y == 0
    | x :: _, [] => x == 0
    | x :: xs, y :: ys => x == y && (x == 0 || strncmpEq xs ys n)

/-- Specification-side predicate: pattern `p` occurs in `t` starting at
offset `s` (byte-for-byte). -/
def occursAt (p t : List Nat) (s : Nat) : Prop :=
  s + p.length ≤ t.length ∧ ∀ j < p.length, t.getD (s + j) 0 = p.getD j 0

instance (p t : List Nat) (s : Nat) : Decidable (occursAt p t s) := by
  unfold occursAt; infer_instance



/-! ## Wu–Manber -/

/-- The fields of the C `PatternSet` that the Wu–Manber engine reads.
`patterns` are the NUL-free byte strings, `min_length` is set by
`wm_prepare_patterns`, `avg_length` is whatever the caller left there
(the parser never assigns it). -/
structure PatternSet where
  patterns : List (List Nat)
  min_length : Nat
  avg_length : Nat
deriving Repr

def PatternSet.pattern_count (ps : PatternSet) : Nat := ps.patterns.length

def PatternSet.pat (ps : PatternSet) (pid : Nat) : List Nat :=
  ps.patterns.getD pid []

/-- `wm_prepare_patterns`: `min_length` is the length of the shortest
pattern, floored at `B`.  (`strnlen` of a NUL-free byte string is its
length; zero-length patterns are ignored by the `L > 0` guard.) -/
def wm_prepare_patterns (patterns : List (List Nat)) (B : Nat) : Nat :=
  let m := patterns.foldl
    (fun m p => if 0 < p.length ∧ p.length < m then p.length else m)
    (2 ^ 31 - 1)
  if m < B then B else m

/-- `choose_block_size` from the Wu–Manber preprocessing. -/
def choose_block_size (ps : PatternSet) : Nat :=
  if ps.min_length < 4 ∨ 5000 < ps.pattern_count then 2
  else if 30 < ps.avg_length then 4
  else 3

/-- The Wu–Manber tables (`WuManberTables` in `wm.h`), with the linked
hash chains kept as the C pair of `hash_table` head and `next` pointers
(`none` stands for `-1`).  The Bloom filter is carried separately. -/
structure WMTables where
  B : Nat
  shift_table : Nat → Nat
  hash_table : Nat → Option Nat
  next : Nat → Option Nat
  prefix_hash : Nat → Nat
  pat_len : Nat → Nat

/-- The body of the shift-lowering loop in `wm_build_tables`:
`x = block_key(P + j, L - j, B); if (new_shift < shift[x]) shift[x] = new_shift`. -/
def wm_shift_step (m B : Nat) (P : List Nat) (tbl : WMTables) (j : Nat) :
    WMTables :=
  let x := block_key (P.drop j) B
  let new_shift := m - j - B
  if new_shift < tbl.shift_table x then
    { tbl with shift_table := upd tbl.shift_table x new_shift }
  else tbl

/-- One pattern's passes of the table-filling loop in `wm_build_tables`:
lower the shift entries for every block of the window and push the pattern
onto the hash chain of its window-suffix block. -/
def wm_add_pattern (m B : Nat) (tbl : WMTables) (pid : Nat) (P : List Nat) :
    WMTables :=
  let L := P.length
  let tbl :=
    { tbl with
      pat_len := upd tbl.pat_len pid L
      prefix_hash := upd tbl.prefix_hash pid ( hash_prefix P L B)
      next := upd tbl.next pid none }
  let tbl := (List.range (m - B + 1)).foldl (wm_shift_step m B P) tbl
  let sfx := block_key (P.drop (m - B)) B
  { tbl with
    next := upd tbl.next pid (tbl.hash_table sfx)
    hash_table := upd tbl.hash_table sfx (some pid) }

/-- `wm_build_tables` (without the Bloom filter, which is threaded
separately): choose `B`, floor the window at `B`, initialise the shift
table to `m - B + 1` and the hash table to `-1`, then fold in the
patterns in order. -/
def wm_build_tables (ps : PatternSet) : WMTables :=
  let B := choose_block_size ps
  let m := max ps.min_length B
  let default_shift := m - B + 1
  let tbl : WMTables :=
    { B := B
      shift_table := fun _ => default_shift
      hash_table := fun _ => none
      next := fun _ => none
      prefix_hash := fun _ => 0
      pat_len := fun _ => 0 }
  (ps.patterns.enum.foldl (fun tbl pr => wm_add_pattern m B tbl pr.1 pr.2) tbl)

/-- Walk a Wu–Manber hash chain (`for pid = hash[k]; pid != -1; pid = next[pid]`)
collecting the pattern ids, with fuel bounding the chain length. -/
def wm_chain (tbl : WMTables) : Option Nat → Nat → List Nat
  | _, 0 => []
  | none, _ => []
  | some pid, fuel + 1 => pid :: wm_chain tbl (tbl.next pid) fuel

/-! ### Bloom filter (`bloom.c`) -/

/-- The C `BloomFilter`: `bit_array` maps a byte index to the byte stored
there (a value `< 256`), `size` is the bit count `m_bits`, `num_hashes`
is `k`.  The real-valued sizing done by `bloom_init` is modelled
separately (`bloomSizeReal` below); the byte array starts zeroed
(`calloc`). -/
structure BloomFilter where
  bit_array : Nat → Nat
  size : Nat
  num_hashes : Nat

def bloom_empty (size num_hashes : Nat) : BloomFilter :=
  ⟨fun _ => 0, size, num_hashes⟩

/-- The bit index probed by hash number `i`:
`(h1 + i * h2) % bf->size` in `uint32_t` arithmetic. -/
def bloom_idx (h1 h2 i size : Nat) : Nat :=
  ((h1 + i * h2) % 2 ^ 32) % size

/-- Test of bit `idx` in the packed byte array:
`bit_array[idx >> 3] & (1 << (idx & 7))`. -/
def bloom_bit (arr : Nat → Nat) (idx : Nat) : Bool :=
  arr (idx >>> 3) &&& (1 <<< (idx &&& 7)) ≠ 0

/-- One probe of `bloom_add`:
`bit_array[idx >> 3] |= 1 << (idx & 7)` at `idx = (h1 + i*h2) % size`. -/
def bloom_set_step (h1 h2 size : Nat) (arr : Nat → Nat) (i : Nat) :
    Nat → Nat :=
  let idx := bloom_idx h1 h2 i size
  upd arr (idx >>> 3) (arr (idx >>> 3) ||| (1 <<< (idx &&& 7)))

/-- `bloom_add`: set bit `(h1 + i*h2) % size` for each `i < k`, where
`h1`, `h2` are FNV-1a over `data` with seeds `0x811C9DC5`, `0x01000193`;
the bit lives in byte `idx >> 3` at position `idx & 7`. -/
def bloom_add (bf : BloomFilter) (data : List Nat) : BloomFilter :=
  let h1 := fnv1a data 0x811C9DC5
  let h2 := fnv1a data 0x01000193
  { bf with
    bit_array := (List.range bf.num_hashes).foldl
      (bloom_set_step h1 h2 bf.size) bf.bit_array }

/-- `bloom_check`: every probed bit must be set. -/
def bloom_check (bf : BloomFilter) (data : List Nat) : Bool :=
  let h1 := fnv1a data 0x811C9DC5
  let h2 := fnv1a data 0x01000193
  (List.range bf.num_hashes).all fun i =>
    bloom_bit bf.bit_array (bloom_idx h1 h2 i bf.size)

/-- The Bloom filter populated by `wm_build_tables` in Bloom mode:
`bloom_add(P, L < B ? L : B)` for each pattern. -/
def wm_build_bloom (patterns : List (List Nat)) (B size k : Nat) : BloomFilter :=
  patterns.foldl (fun bf P => bloom_add bf (P.take (min P.length B)))
    (bloom_empty size k)

/-! ### Search (`wm_search` in `wm.c`) -/

/-- One Wu–Manber window at position `i`: the verifications done on the
hash chain of the window's suffix block.  A pattern is emitted (the
`exact_matches++` site) when its stored prefix hash equals the window's and
`strncmp(text + i + 1 - m, patterns[pid], ps->min_length) == 0`; the match
offset is the window start `i + 1 - m`. -/
def wm_verify (text : List Nat) (ps : PatternSet) (tbl : WMTables)
    (m i : Nat) : List (Nat × Nat) :=
  let key := block_key (text.drop (i + 1 - tbl.B)) tbl.B
  let h := hash_prefix (text.drop (i + 1 - m)) m tbl.B
  ((wm_chain tbl (tbl.hash_table key) ps.pattern_count).filter fun pid =>
      tbl.prefix_hash pid == h &&
      strncmpEq (text.drop (i + 1 - m)) (ps.pat pid) ps.min_length).map
    fun pid => (pid, i + 1 - m)

/-- The scan loop of `wm_search`.  `fuel` dominates the number of
iterations (the index advances by at least one per iteration). -/
def wm_loop (text : List Nat) (ps : PatternSet) (tbl : WMTables)
    (bf : Option BloomFilter) (m : Nat) : Nat → Nat → List (Nat × Nat)
  | _, 0 => []
  | i, fuel + 1 =>
    if i < text.length then
      let key := block_key (text.drop (i + 1 - tbl.B)) tbl.B
      let shift := tbl.shift_table key
      if 0 < shift then wm_loop text ps tbl bf m (i + shift) fuel
      else
        match bf with
        | some bf' =>
          if bloom_check bf' ((text.drop (i + 1 - m)).take tbl.B) then
            wm_verify text ps tbl m i ++ wm_loop text ps tbl bf m (i + 1) fuel
          else wm_loop text ps tbl bf m (i + 1) fuel
        | none =>
          wm_verify text ps tbl m i ++ wm_loop text ps tbl bf m (i + 1) fuel
    else []

/-- `wm_search`: window length `m = max(ps->min_length, B)`, scan from
`i = m - 1`, reporting `(pid, i + 1 - m)` pairs in emission order. -/
def wm_search (text : List Nat) (ps : PatternSet) (tbl : WMTables)
    (bf : Option BloomFilter) : List (Nat × Nat) :=
  let m := max ps.min_length tbl.B
  wm_loop text ps tbl bf m (m - 1) (text.length + 1)

/-- The full deterministic Wu–Manber pipeline as wired by `createTable`
(`wm_prepare_patterns` with `default_B = 2`, then `wm_build_tables`) and
`wm_search`. -/
def wmRunDet (patterns : List (List Nat)) (avg : Nat) (text : List Nat) :
    List (Nat × Nat) :=
  let ps : PatternSet := ⟨patterns, wm_prepare_patterns patterns 2, avg⟩
  wm_search text ps (wm_build_tables ps) none

/-- The Bloom-filtered Wu–Manber pipeline, with the filter geometry
`(size, k)` passed in (the real-valued computation of `bloom_init` is
modelled separately). -/
def wmRunBloom (patterns : List (List Nat)) (avg : Nat) (size k : Nat)
    (text : List Nat) : List (Nat × Nat) :=
  let ps : PatternSet := ⟨patterns, wm_prepare_patterns patterns 2, avg⟩
  let tbl := wm_build_tables ps
  wm_search text ps tbl (some (wm_build_bloom patterns tbl.B size k))

/-- Instrumentation: the byte sequences a Bloom-mode scan hands to
`bloom_check` (`text + i + 1 - m` with length `B`, at every zero-shift
window).  The windows visited do not depend on the filter contents, since
a window with shift 0 always advances the index by exactly one. -/
def wm_checked_loop (text : List Nat) (tbl : WMTables) (m : Nat) :
    Nat → Nat → List (Nat × List Nat)
  | _, 0 => []
  | i, fuel + 1 =>
    if i < text.length then
      let key := block_key (text.drop (i + 1 - tbl.B)) tbl.B
      let shift := tbl.shift_table key
      if 0 < shift then wm_checked_loop text tbl m (i + shift) fuel
      else (i + 1 - m, (text.drop (i + 1 - m)).take tbl.B) ::
        wm_checked_loop text tbl m (i + 1) fuel
    else []

/-- The `(window start, checked bytes)` pairs of a Bloom-mode scan. -/
def wmCheckedBlocks (patterns : List (List Nat)) (avg : Nat)
    (text : List Nat) : List (Nat × List Nat) :=
  let ps : PatternSet := ⟨patterns, wm_prepare_patterns patterns 2, avg⟩
  let tbl := wm_build_tables ps
  let m := max ps.min_length tbl.B
  wm_checked_loop text tbl m (m - 1) (text.length + 1)

/-- The byte sequences `wm_build_tables` inserts into the Bloom filter:
the first `min(L, B)` bytes of each pattern. -/
def wmInsertedBlocks (patterns : List (List Nat)) (avg : Nat) :
    List (List Nat) :=
  let ps : PatternSet := ⟨patterns, wm_prepare_patterns patterns 2, avg⟩
  let B := choose_block_size ps
  patterns.map fun P => P.take (min P.length B)



/-! ## Set–Horspool (`setHorspoolSearch`, hash-table variant) -/

/-- The fields of the C `Pattern` record the Set–Horspool engine reads. -/
structure SHPattern where
  pattern : List Nat
  nocase : Bool
deriving Repr

/-- `compareChar`: case-folded or exact byte comparison. -/
def compareChar (a b : Nat) (nocase : Bool) : Bool :=
  if nocase then toLowerChar a == toLowerChar b else a == b

/-- The opposite-case byte used for `nocase` table entries:
`isupper(ch) ? tolower(ch) : toupper(ch)`. -/
def altCase (ch : Nat) : Nat :=
  if isUpperChar ch then toLowerChar ch else toUpperChar ch

/-- The minimum pattern length, as computed from `patterns[0].length`
and then folding `min` (the engine is never run on an empty set). -/
def shMinLength : List SHPattern → Nat
  | [] => 0
  | p :: rest =>
    rest.foldl (fun m q =>
      if q.pattern.length < m then q.pattern.length else m) p.pattern.length

/-- `buildSetHorspoolShiftTable`: default `minLength`; every character at
position `i < minLength - 1` of any pattern lowers its entry (and its
opposite-case entry for a `nocase` pattern) to `minLength - 1 - i`. -/
def buildSetHorspoolShiftTable (pats : List SHPattern) : Nat → Nat :=
  let m := shMinLength pats
  pats.foldl
    (fun shiftTable p =>
      (List.range (m - 1)).foldl
        (fun shiftTable i =>
          let ch := p.pattern.getD i 0
          let s := m - 1 - i
          let shiftTable :=
            if s < shiftTable ch then upd shiftTable ch s
            else shiftTable
          if p.nocase ∧ isAlphaChar ch then
            let alt := altCase ch
            if s < shiftTable alt then upd shiftTable alt s
            else shiftTable
          else shiftTable)
        shiftTable)
    (fun _ => m)

/-- `buildPatternHashTable`: bucket each pattern id under its byte at
position `minLength - 1` (both cases for a `nocase` pattern). -/
def buildPatternHashTable (pats : List SHPattern) (minLength : Nat) :
    Nat → List Nat :=
  pats.enum.foldl
    (fun ht pr =>
      let p := pr.1
      let pat := pr.2
      if pat.pattern.length < minLength then ht
      else
        let ch := pat.pattern.getD (minLength - 1) 0
        let ht := upd ht ch (ht ch ++ [p])
        if pat.nocase ∧ isAlphaChar ch then
          let altCh := altCase ch
          upd ht altCh (ht altCh ++ [p])
        else ht)
    (fun _ => [])

/-- The per-candidate verification of `setHorspoolSearch`: nonzero length,
in bounds, and `compareChar` over the full pattern length. -/
def shVerify (text : List Nat) (pats : List SHPattern) (pos p : Nat) : Bool :=
  let pat := pats.getD p ⟨[], false⟩
  let len := pat.pattern.length
  0 < len && pos + len ≤ text.length &&
    (List.range len).all fun j =>
      compareChar (text.getD (pos + j) 0) (pat.pattern.getD j 0) pat.nocase

/-- The scan loop of `setHorspoolSearch` (hash-table variant): skip the
window outright when the end character's shift exceeds 1, otherwise verify
exactly the bucket of the end character; advance by 1 after a hit, else by
`max(1, shift)`. -/
def shLoop (text : List Nat) (pats : List SHPattern) (shiftTable : Nat → Nat)
    (m : Nat) (bucket : Nat → List Nat) : Nat → Nat → List (Nat × Nat)
  | _, 0 => []
  | pos, fuel + 1 =>
    if pos + m ≤ text.length then
      let windowEnd := pos + m - 1
      if text.length ≤ windowEnd then []
      else
        let e := text.getD windowEnd 0
        let s := shiftTable e
        if 1 < s then shLoop text pats shiftTable m bucket (pos + s) fuel
        else
          let emitted := (bucket e).filter (shVerify text pats pos)
          emitted.map (fun p => (p, pos)) ++
            shLoop text pats shiftTable m bucket
              (if emitted.isEmpty then pos + (if 0 < s then s else 1)
               else pos + 1) fuel
    else []

/-- The Set–Horspool pipeline of `performSetHorspool`:
compute `minLength`, build the shift and bucket tables, scan. -/
def shRun (pats : List SHPattern) (text : List Nat) : List (Nat × Nat) :=
  let m := shMinLength pats
  if m = 0 then []
  else
    shLoop text pats (buildSetHorspoolShiftTable pats) m
      (buildPatternHashTable pats m) 0 (text.length + 1)



/-! ## Boyer–Moore (`bm.c`) -/

/-- The per-pattern tables of `bm_preprocessing` (`PatternTable` in
`bm.h`).  `bad` holds `-1` (`NOT_IN_PATTERN`) for absent bytes.  The C
`goodSuffixTable` is heap memory that the code only zeroes at indices
`< L`; the model starts it all-zero. -/
structure BMTable where
  pattern : List Nat
  bad : Nat → Int
  good : Nat → Nat
  border : Nat → Nat

/-- The inner `while (k <= L && pattern[index-1] != pattern[k-1])` loop of
the border construction; `k` strictly increases through `border`, so
`L + 2` fuel suffices. -/
def bmInnerLoop (P : List Nat) (L index : Nat) :
    (Nat → Nat) → (Nat → Nat) → Nat → Nat → (Nat → Nat) × Nat
  | good, _, k, 0 => (good, k)
  | good, border, k, fuel + 1 =>
    if k ≤ L ∧ P.getD (index - 1) 0 ≠ P.getD (k - 1) 0 then
      let good := if good k = 0 then upd good k (k - 1) else good
      bmInnerLoop P L index good border (border k) fuel
    else (good, k)

/-- The outer `while (index > 0)` loop of the border construction,
structurally recursive in `index`. -/
def bmBorderLoop (P : List Nat) (L : Nat) :
    Nat → Nat → (Nat → Nat) → (Nat → Nat) → (Nat → Nat) × (Nat → Nat) × Nat
  | 0, k, good, border => (good, border, k)
  | index + 1, k, good, border =>
    let r := bmInnerLoop P L (index + 1) good border k (L + 2)
    let border := upd border index (r.2 - 1)
    bmBorderLoop P L index (r.2 - 1) r.1 border

/-- `bm_preprocessing` for one pattern: bad-character table, border table
and good-suffix table. -/
def bm_preprocessing (P : List Nat) : BMTable :=
  let L := P.length
  let bad := P.enum.foldl
    (fun bad pr =>
      if (pr.1 : Int) > bad pr.2 then upd bad pr.2 (pr.1 : Int)
      else bad)
    (fun _ => (-1 : Int))
  let good : Nat → Nat := fun _ => 0
  let border : Nat → Nat := upd (fun _ => 0) L (L + 1)
  let r := bmBorderLoop P L L (L + 1) good border
  let good := r.1
  let border := r.2.1
  let final := (List.range (L + 1)).foldl
    (fun (pr : (Nat → Nat) × Nat) index =>
      let good := pr.1
      let k := pr.2
      let good := if good index = 0 then upd good index k else good
      let k := if index = k then border k else k
      (good, k))
    (good, border 0)
  { pattern := P, bad := bad, good := final.1, border := border }

/-- The right-to-left comparison loop of `bm_search`
(`while (j >= 0 && pattern[j] != 0 && pattern[j] == text[shift+j]) j--`),
returning the final `j`. -/
def bmCompare (text P : List Nat) (shift : Nat) : Int → Nat → Int
  | j, 0 => j
  | j, fuel + 1 =>
    if 0 ≤ j ∧ P.getD j.toNat 0 ≠ 0 ∧
        P.getD j.toNat 0 = text.getD (shift + j.toNat) 0 then
      bmCompare text P shift (j - 1) fuel
    else j

/-- The per-pattern scan loop of `bm_search`.  On a full match it records
`(pid, shift)` and breaks out (the source is "slightly changed to break
when first match is found"); on a mismatch it advances `shift` by
`j - skip` when `skip > 0 && j - skip > 1`, else by 1.  The mismatch
position `j` is carried over to the next iteration (the source never
resets it). -/
def bmPatternLoop (text : List Nat) (t : BMTable) (pid : Nat) :
    Nat → Int → Nat → List (Nat × Nat)
  | _, _, 0 => []
  | shift, j, fuel + 1 =>
    let L := t.pattern.length
    if 1 ≤ shift + L ∧ shift + L - 1 < text.length then
      let j' := bmCompare text t.pattern shift j (L + 1)
      if j' < 0 then [(pid, shift)]
      else
        let bad_skip := t.bad (text.getD (shift + j'.toNat) 0)
        let skip :=
          if shift + j'.toNat + 1 ≤ L then
            let good_skip := (t.good (shift + j'.toNat + 1) : Int)
            if bad_skip < good_skip then good_skip else bad_skip
          else bad_skip
        if 0 < skip ∧ 1 < j' - skip then
          bmPatternLoop text t pid (shift + (j' - skip).toNat) j' fuel
        else bmPatternLoop text t pid (shift + 1) j' fuel
    else []

/-- `bm_search` over a whole pattern set: each pattern is scanned
independently with `shift = 0` and initial `j = L - 1`. -/
def bmRun (patterns : List (List Nat)) (text : List Nat) :
    List (Nat × Nat) :=
  patterns.enum.foldl
    (fun acc pr =>
      let t := bm_preprocessing pr.2
      acc ++ bmPatternLoop text t pr.1 0 ((pr.2.length : Int) - 1)
        (text.length + 1))
    []



/-! ## Aho–Corasick (`ac.c`)

The node array is modelled by total functions on node ids: `trans` is the
256-entry transition table (`none` standing for the `-1` sentinel), `fail`
the failure link, `out` the output list (pattern ids; the C stores the
pattern pointers, which identify the inserted pattern), `cnt` the node
count.  Fresh nodes already carry `fail = 0`, `out = []` in the model, so
the C's explicit initialisation of a new node is implicit. -/

structure AC where
  trans : Nat → Option Nat
  fail : Nat → Nat
  out : Nat → List Nat
  cnt : Nat

/-- Row-major index of entry `c` of node `s`'s 256-entry transition
array. -/
def acKey (s c : Nat) : Nat := s * 256 + c

/-- `ac_create`: a lone root node `0` with all transitions unset. -/
def acCreate : AC := ⟨fun _ => none, fun _ => 0, fun _ => [], 1⟩

/-- The insertion walk of `ac_add_pattern`: follow (and create) the chain
of transitions on the case-folded bytes, returning the final state. -/
def acAddFrom (a : AC) (state : Nat) : List Nat → AC × Nat
  | [] => (a, state)
  | b :: bs =>
    let c := toLowerChar b
    match a.trans (acKey state c) with
    | some t => acAddFrom a t bs
    | none =>
      let newNode := a.cnt
      let a' : AC :=
        { a with
          trans := upd a.trans (acKey state c) (some newNode)
          cnt := a.cnt + 1 }
      acAddFrom a' newNode bs

/-- `ac_add_pattern`: empty patterns are rejected; otherwise insert the
folded byte chain and append the pattern (by id) to the terminal node's
output list. -/
def ac_add_pattern (a : AC) (pid : Nat) (p : List Nat) : AC :=
  match p with
  | [] => a
  | _ :: _ =>
    let r := acAddFrom a 0 p
    { r.1 with out := upd r.1.out r.2 (r.1.out r.2 ++ [pid]) }

/-- Build the trie for a pattern list (ids in list order). -/
def acOfPatterns (patterns : List (List Nat)) : AC :=
  patterns.enum.foldl (fun a pr => ac_add_pattern a pr.1 pr.2) acCreate

/-- The failure walk of `ac_build`
(`while (transitions[fail][c] == -1) fail = fail_state[fail]`), with fuel;
after the root has been gap-filled it stops at the root at the latest. -/
def acFailWalk (a : AC) (c : Nat) : Nat → Nat → Nat
  | f, 0 => f
  | f, fuel + 1 =>
    match a.trans (acKey f c) with
    | some _ => f
    | none => acFailWalk a c (a.fail f) fuel

/-- The first loop of `ac_build` over the root's 256 entries, by its
effect: every missing root transition is pointed at the root itself
(`acKey 0 c = c`, so row 0 is exactly the keys `< 256`), the root's
children are enqueued in byte order, and their failure links are set to 0
— a no-op, since every node is created with `fail_state = 0` and `fail`
is untouched before `ac_build`. -/
def acBuildRoot (a : AC) : AC × List Nat :=
  ({ a with
      trans := fun k => if k < 256 ∧ a.trans k = none then some 0 else a.trans k },
    (List.range 256).filterMap fun c => a.trans (acKey 0 c))

/-- One character of the BFS child loop: if state `s` has a child on `c`,
enqueue it, set its failure link through the failure walk, and append the
failure node's output list to the child's (when nonempty). -/
def acChildStep (s : Nat) (pr : AC × List Nat) (c : Nat) : AC × List Nat :=
  let a := pr.1
  match a.trans (acKey s c) with
  | none => pr
  | some nx =>
    let f := acFailWalk a c (a.fail s) a.cnt
    let nf := (a.trans (acKey f c)).getD 0
    let a := { a with fail := upd a.fail nx nf }
    let a :=
      if (a.out nf).length ≠ 0 then
        { a with out := upd a.out nx (a.out nx ++ a.out nf) }
      else a
    (a, pr.2 ++ [nx])

/-- Processing one dequeued state in `ac_build`'s BFS: the child loop over
the 256 characters. -/
def acProcessNode (a : AC) (s : Nat) : AC × List Nat :=
  (List.range 256).foldl (acChildStep s) (a, [])

/-- The BFS queue loop of `ac_build`, with fuel (each node is enqueued at
most once, so `cnt` dequeues suffice). -/
def acBFS : AC → List Nat → Nat → AC
  | a, _, 0 => a
  | a, [], _ => a
  | a, s :: rest, fuel + 1 =>
    let pr := acProcessNode a s
    acBFS pr.1 (rest ++ pr.2) fuel

/-- `ac_build`: gap-fill the root and run the BFS. -/
def ac_build (a : AC) : AC :=
  let pr := acBuildRoot a
  acBFS pr.1 pr.2 pr.1.cnt

/-- The state walk of `ac_search` for one input byte: follow failure links
while there is no transition and the state is not the root. -/
def acScanWalk (a : AC) (c : Nat) : Nat → Nat → Nat
  | st, 0 => st
  | st, fuel + 1 =>
    if a.trans (acKey st c) = none ∧ st ≠ 0 then acScanWalk a c (a.fail st) fuel
    else st

/-- One scanned byte of `ac_search`: fold the byte, walk, take the
transition (`-1` falls back to the root). -/
def acStep (a : AC) (st b : Nat) : Nat :=
  let c := toLowerChar b
  let st' := acScanWalk a c st a.cnt
  (a.trans (acKey st' c)).getD 0

/-- The scan loop of `ac_search`: at input index `i` every pattern id in
the current state's output list is reported at start offset
`i - strlen(pattern) + 1` (C `int` arithmetic, hence `Int` here). -/
def acScanFrom (a : AC) (lens : Nat → Nat) :
    Nat → Nat → List Nat → List (Nat × Int)
  | _, _, [] => []
  | st, i, b :: bs =>
    let st' := acStep a st b
    (a.out st').map (fun pid => (pid, (i : Int) - (lens pid : Int) + 1)) ++
      acScanFrom a lens st' (i + 1) bs

/-- The Aho–Corasick pipeline: insert all patterns, build, scan. -/
def acRun (patterns : List (List Nat)) (text : List Nat) :
    List (Nat × Int) :=
  let a := ac_build (acOfPatterns patterns)
  acScanFrom a (fun pid => (patterns.getD pid []).length) 0 0 text



/-! ## Claims: concrete evaluations and counterexamples -/

/-- C1: the claim demands that AC, WM-det, WM-prob, SH and BM report
identical multisets of `(pid, start)` pairs on every input.  On the
signature set `{"aa"}` and text `"aaaa"` the Aho–Corasick scan reports
offsets 0, 1 and 2, while the Boyer–Moore scan breaks out after its first
match and reports only offset 0, so the multisets differ. -/
theorem C1_universality_fails_eval :
    acRun [[97, 97]] [97, 97, 97, 97] = [(0, 0), (0, 1), (0, 2)] ∧
    bmRun [[97, 97]] [97, 97, 97, 97] = [(0, 0)] ∧
    ((acRun [[97, 97]] [97, 97, 97, 97]).map Prod.snd : Multiset Int) ≠
      ((bmRun [[97, 97]] [97, 97, 97, 97]).map (fun m => (m.2 : Int)) :
        Multiset Int) := by
  refine ⟨by decide, by decide, ?_⟩
  decide

/-- C2: the claim (and the spec) require `wm_search` to verify a chain
candidate over its full `pat_len[pid]` bytes with an
`i - m + 1 + pat_len[pid] ≤ n` bounds check.  The code compares only
`ps->min_length` bytes: on `S = {"ab", "abc"}` and `T = "abx"` it reports
pattern 1 (`"abc"`) at offset 0 even though `"abc"` does not occur
there. -/
theorem C2_wm_verifies_min_length_only :
    wmRunDet [[97, 98], [97, 98, 99]] 0 [97, 98, 120] = [(1, 0), (0, 0)] ∧
    ¬ occursAt [97, 98, 99] [97, 98, 120] 0 := by
  refine ⟨by decide, by decide⟩

/-- C5: the claim says the Boyer–Moore scan keeps going after a full match
(advancing by `max(1, L - border[0])`).  The code breaks out of the
per-pattern loop at the first match: on `S = {"abc"}` and
`T = "xxabcxxabc"` it reports only offset 2, although `"abc"` also occurs
at offset 7. -/
theorem C5_bm_stops_after_first_match :
    bmRun [[97, 98, 99]] [120, 120, 97, 98, 99, 120, 120, 97, 98, 99] =
      [(0, 2)] ∧
    occursAt [97, 98, 99] [120, 120, 97, 98, 99, 120, 120, 97, 98, 99] 7 := by
  refine ⟨by decide, by decide⟩

/-- C3 (counterexample): with `S = {"a"}` (so `B = 2 > |P|`) and
`T = [0x61, 0x00]`, the Bloom-mode scan reaches a zero-shift window whose
start carries a true occurrence of the pattern, and hands `bloom_check`
the two bytes `[0x61, 0x00]` — but `bloom_add` inserted only the single
byte `[0x61]` (`min(|P|, B)` bytes), so the checked byte sequence was
never inserted, contradicting the claim. -/
theorem C3_checked_bytes_not_inserted :
    (0, [97, 0]) ∈ wmCheckedBlocks [[97]] 0 [97, 0] ∧
    occursAt [97] [97, 0] 0 ∧
    [97, 0] ∉ wmInsertedBlocks [[97]] 0 := by
  refine ⟨by decide, by decide, by decide⟩

/-- C4 (counterexample): the claim says a case-sensitive pattern matches
only exact-case occurrences in every engine.  The Aho–Corasick engine
folds every inserted and scanned byte to lowercase regardless of the
`nocase` flag: pattern `"A"` is reported at offset 0 of text `"a"`,
although `text[0..1)` is not byte-for-byte equal to the pattern. -/
theorem C4_ac_ignores_case_sensitivity :
    (0, 0) ∈ acRun [[65]] [97] ∧ ¬ occursAt [65] [97] 0 := by
  refine ⟨by decide, by decide⟩

/-- C9: at each window position `pos` of the Set–Horspool scan with end
character `e = text[pos+m-1]` and `s = shift[e]`: if `s > 1` the window
advances by `s` with no verification and no emission; otherwise exactly
the candidates in `bucket[e]` are verified, and the scan advances by 1
when at least one match was emitted at `pos`, else by `max(1, s)`. -/
theorem C9_sh_window_step (text : List Nat) (pats : List SHPattern)
    (shiftTable : Nat → Nat) (bucket : Nat → List Nat) (m pos fuel : Nat)
    (hm : 0 < m) (h : pos + m ≤ text.length) :
    shLoop text pats shiftTable m bucket pos (fuel + 1) =
      if 1 < shiftTable (text.getD (pos + m - 1) 0) then
        shLoop text pats shiftTable m bucket
          (pos + shiftTable (text.getD (pos + m - 1) 0)) fuel
      else
        ((bucket (text.getD (pos + m - 1) 0)).filter
            (shVerify text pats pos)).map (fun p => (p, pos)) ++
          shLoop text pats shiftTable m bucket
            (if ((bucket (text.getD (pos + m - 1) 0)).filter
                  (shVerify text pats pos)).isEmpty then
              pos + max 1 (shiftTable (text.getD (pos + m - 1) 0))
            else pos + 1) fuel := by
  have hwe : ¬ text.length ≤ pos + m - 1 := by omega
  have hmax : (if 0 < shiftTable (text.getD (pos + m - 1) 0) then
        shiftTable (text.getD (pos + m - 1) 0) else 1) =
      max 1 (shiftTable (text.getD (pos + m - 1) 0)) := by
    rcases Nat.eq_zero_or_pos (shiftTable (text.getD (pos + m - 1) 0)) with h0 | h0
    · rw [h0]
      decide
    · rw [if_pos h0]
      omega
  simp only [shLoop, if_pos h, if_neg hwe, hmax]

/-- Witness for `C9_sh_window_step`: a concrete window of the scan of
`"aaaa"` for `{"aa"}`. -/
theorem C9_sh_window_step_witness :
    0 < 2 ∧ 0 + 2 ≤ ([97, 97, 97, 97] : List Nat).length ∧
    shLoop [97, 97, 97, 97] [⟨[97, 97], false⟩]
        (buildSetHorspoolShiftTable [⟨[97, 97], false⟩]) 2
        (buildPatternHashTable [⟨[97, 97], false⟩] 2) 0 5 =
      if 1 < buildSetHorspoolShiftTable [⟨[97, 97], false⟩]
          (([97, 97, 97, 97] : List Nat).getD (0 + 2 - 1) 0) then
        shLoop [97, 97, 97, 97] [⟨[97, 97], false⟩]
          (buildSetHorspoolShiftTable [⟨[97, 97], false⟩]) 2
          (buildPatternHashTable [⟨[97, 97], false⟩] 2)
          (0 + buildSetHorspoolShiftTable [⟨[97, 97], false⟩]
            (([97, 97, 97, 97] : List Nat).getD (0 + 2 - 1) 0)) 4
      else
        ((buildPatternHashTable [⟨[97, 97], false⟩] 2
            (([97, 97, 97, 97] : List Nat).getD (0 + 2 - 1) 0)).filter
              (shVerify [97, 97, 97, 97] [⟨[97, 97], false⟩] 0)).map
            (fun p => (p, 0)) ++
          shLoop [97, 97, 97, 97] [⟨[97, 97], false⟩]
            (buildSetHorspoolShiftTable [⟨[97, 97], false⟩]) 2
            (buildPatternHashTable [⟨[97, 97], false⟩] 2)
            (if ((buildPatternHashTable [⟨[97, 97], false⟩] 2
                  (([97, 97, 97, 97] : List Nat).getD (0 + 2 - 1) 0)).filter
                    (shVerify [97, 97, 97, 97] [⟨[97, 97], false⟩] 0)).isEmpty
              then 0 + max 1 (buildSetHorspoolShiftTable [⟨[97, 97], false⟩]
                (([97, 97, 97, 97] : List Nat).getD (0 + 2 - 1) 0))
              else 0 + 1) 4 :=
  ⟨by decide, by decide,
    C9_sh_window_step [97, 97, 97, 97] [⟨[97, 97], false⟩]
      (buildSetHorspoolShiftTable [⟨[97, 97], false⟩])
      (buildPatternHashTable [⟨[97, 97], false⟩] 2) 2 0 4 (by decide)
      (by decide)⟩


/-- Every pair emitted by the Set–Horspool scan loop passed the full
`shVerify` check at its reported position. -/
theorem shLoop_emission_sound (text : List Nat) (pats : List SHPattern)
    (st : Nat → Nat) (m : Nat) (bucket : Nat → List Nat) :
    ∀ fuel pos q qpos, (q, qpos) ∈ shLoop text pats st m bucket pos fuel →
      shVerify text pats qpos q = true := by
  intro fuel
  induction fuel with
  | zero => intro pos q qpos h; simp [shLoop] at h
  | succ fuel ih =>
    intro pos q qpos h
    rw [shLoop] at h
    by_cases hge : pos + m ≤ text.length
    · rw [if_pos hge] at h
      by_cases hwe : text.length ≤ pos + m - 1
      · rw [if_pos hwe] at h
        simp at h
      · rw [if_neg hwe] at h
        by_cases hs : 1 < st (text.getD (pos + m - 1) 0)
        · rw [if_pos hs] at h
          exact ih _ _ _ h
        · rw [if_neg hs] at h
          rcases List.mem_append.mp h with hmap | hrec
          · rcases List.mem_map.mp hmap with ⟨p', hp', heq⟩
            cases heq
            exact (List.mem_filter.mp hp').2
          · exact ih _ _ _ hrec
    · rw [if_neg hge] at h
      simp at h

/-- C4 (amended): in the Set–Horspool engine a reported match `(p, pos)`
always satisfies the per-pattern comparison over the full pattern length:
byte-for-byte equality with the text when the pattern is not `nocase`, and
ASCII-case-folded equality when it is.  (The other engines do not all
honor the flag: AC folds every byte regardless of `nocase`, and WM and BM
compare raw bytes regardless of it.) -/
theorem C4_sh_match_respects_nocase (pats : List SHPattern)
    (text : List Nat) (p pos : Nat) (hmem : (p, pos) ∈ shRun pats text) :
    pos + (pats.getD p ⟨[], false⟩).pattern.length ≤ text.length ∧
    ((pats.getD p ⟨[], false⟩).nocase = false →
      occursAt (pats.getD p ⟨[], false⟩).pattern text pos) ∧
    ((pats.getD p ⟨[], false⟩).nocase = true →
      ∀ j < (pats.getD p ⟨[], false⟩).pattern.length,
        toLowerChar (text.getD (pos + j) 0) =
          toLowerChar ((pats.getD p ⟨[], false⟩).pattern.getD j 0)) := by
  have hv : shVerify text pats pos p = true := by
    rw [shRun] at hmem
    by_cases hz : shMinLength pats = 0
    · rw [if_pos hz] at hmem
      simp at hmem
    · rw [if_neg hz] at hmem
      exact shLoop_emission_sound text pats _ _ _ _ _ _ _ hmem
  rw [shVerify] at hv
  simp only [Bool.and_eq_true, decide_eq_true_eq, List.all_eq_true,
    List.mem_range] at hv
  obtain ⟨⟨hlen, hbound⟩, hall⟩ := hv
  refine ⟨hbound, ?_, ?_⟩
  · intro hcase
    refine ⟨hbound, ?_⟩
    intro j hj
    have := hall j hj
    rw [compareChar, hcase] at this
    simpa using this
  · intro hcase j hj
    have := hall j hj
    rw [compareChar, hcase] at this
    simpa using this

/-- Witness for `C4_sh_match_respects_nocase`: the `nocase` pattern
`"aA"` reported at offset 1 of `"xaa"`. -/
theorem C4_sh_match_respects_nocase_witness :
    (0, 1) ∈ shRun [⟨[97, 65], true⟩] [120, 97, 97] ∧
    1 + (([⟨[97, 65], true⟩] : List SHPattern).getD 0
        ⟨[], false⟩).pattern.length ≤ ([120, 97, 97] : List Nat).length :=
  ⟨by decide,
    (C4_sh_match_respects_nocase [⟨[97, 65], true⟩] [120, 97, 97] 0 1
      (by decide)).1⟩

/-! ### Wu–Manber table invariants (C7) -/

theorem wm_shift_step_le (m B : Nat) (P : List Nat) (tbl : WMTables)
    (j x : Nat) :
    (wm_shift_step m B P tbl j).shift_table x ≤ tbl.shift_table x := by
  simp only [wm_shift_step]
  by_cases hlt : m - j - B < tbl.shift_table (block_key (P.drop j) B)
  · rw [if_pos hlt]
    by_cases hx : x = block_key (P.drop j) B
    · subst hx
      simp only [upd_same]
      omega
    · simp only [upd_other _ _ _ hx, le_refl]
  · rw [if_neg hlt]

theorem wm_shift_step_bound (m B : Nat) (P : List Nat) (tbl : WMTables)
    (j : Nat) :
    (wm_shift_step m B P tbl j).shift_table (block_key (P.drop j) B) ≤
      m - j - B := by
  simp only [wm_shift_step]
  by_cases hlt : m - j - B < tbl.shift_table (block_key (P.drop j) B)
  · rw [if_pos hlt]
    simp [upd_same]
  · rw [if_neg hlt]
    omega

theorem wm_shift_step_other (m B : Nat) (P : List Nat) (tbl : WMTables)
    (j x : Nat) (hx : x ≠ block_key (P.drop j) B) :
    (wm_shift_step m B P tbl j).shift_table x = tbl.shift_table x := by
  simp only [wm_shift_step]
  by_cases hlt : m - j - B < tbl.shift_table (block_key (P.drop j) B)
  · rw [if_pos hlt]
    exact upd_other _ _ _ hx
  · rw [if_neg hlt]

theorem wm_shift_fold_le (m B : Nat) (P : List Nat) (l : List Nat) :
    ∀ (tbl : WMTables) (x : Nat),
      (l.foldl (wm_shift_step m B P) tbl).shift_table x ≤
        tbl.shift_table x := by
  induction l with
  | nil => intro tbl x; exact le_refl _
  | cons j l ih =>
    intro tbl x
    exact le_trans (ih _ x) (wm_shift_step_le m B P tbl j x)

theorem wm_shift_fold_bound (m B : Nat) (P : List Nat) (l : List Nat) :
    ∀ (tbl : WMTables), ∀ j ∈ l,
      (l.foldl (wm_shift_step m B P) tbl).shift_table
        (block_key (P.drop j) B) ≤ m - j - B := by
  induction l with
  | nil => intro tbl j hj; simp at hj
  | cons j0 l ih =>
    intro tbl j hj
    rcases List.mem_cons.mp hj with rfl | hj
    · exact le_trans (wm_shift_fold_le m B P l _ _)
        (wm_shift_step_bound m B P tbl j)
    · exact ih _ j hj

theorem wm_shift_fold_other (m B : Nat) (P : List Nat) (l : List Nat) :
    ∀ (tbl : WMTables) (x : Nat), (∀ j ∈ l, x ≠ block_key (P.drop j) B) →
      (l.foldl (wm_shift_step m B P) tbl).shift_table x =
        tbl.shift_table x := by
  induction l with
  | nil => intro tbl x _; rfl
  | cons j0 l ih =>
    intro tbl x hx
    rw [List.foldl_cons, ih _ x fun j hj => hx j (List.mem_cons_of_mem _ hj),
      wm_shift_step_other m B P tbl j0 x (hx j0 (List.mem_cons_self _ _))]

theorem wm_add_pattern_shift_le (m B : Nat) (tbl : WMTables) (pid : Nat)
    (P : List Nat) (x : Nat) :
    (wm_add_pattern m B tbl pid P).shift_table x ≤ tbl.shift_table x := by
  simp only [wm_add_pattern]
  exact wm_shift_fold_le m B P _ _ x

theorem wm_add_pattern_shift_bound (m B : Nat) (tbl : WMTables) (pid : Nat)
    (P : List Nat) (j : Nat) (hj : j ≤ m - B) :
    (wm_add_pattern m B tbl pid P).shift_table (block_key (P.drop j) B) ≤
      m - j - B := by
  simp only [wm_add_pattern]
  exact wm_shift_fold_bound m B P _ _ j (List.mem_range.mpr (by omega))

theorem wm_add_pattern_shift_other (m B : Nat) (tbl : WMTables) (pid : Nat)
    (P : List Nat) (x : Nat) (hx : ∀ j ≤ m - B, x ≠ block_key (P.drop j) B) :
    (wm_add_pattern m B tbl pid P).shift_table x = tbl.shift_table x := by
  simp only [wm_add_pattern]
  exact wm_shift_fold_other m B P _ _ x
    fun j hj => hx j (by have := List.mem_range.mp hj; omega)

theorem wm_build_fold_shift_le (m B : Nat) (l : List (Nat × List Nat)) :
    ∀ (tbl : WMTables) (x : Nat),
      (l.foldl (fun tbl pr => wm_add_pattern m B tbl pr.1 pr.2)
        tbl).shift_table x ≤ tbl.shift_table x := by
  induction l with
  | nil => intro tbl x; exact le_refl _
  | cons hd l ih =>
    intro tbl x
    exact le_trans (ih _ x) (wm_add_pattern_shift_le m B tbl hd.1 hd.2 x)

theorem wm_build_fold_shift_bound (m B : Nat) (l : List (Nat × List Nat)) :
    ∀ (tbl : WMTables), ∀ pr ∈ l, ∀ j ≤ m - B,
      (l.foldl (fun tbl pr => wm_add_pattern m B tbl pr.1 pr.2)
        tbl).shift_table (block_key (pr.2.drop j) B) ≤ m - j - B := by
  induction l with
  | nil => intro tbl pr hpr; simp at hpr
  | cons hd l ih =>
    intro tbl pr hpr j hj
    rcases List.mem_cons.mp hpr with rfl | hpr
    · exact le_trans (wm_build_fold_shift_le m B l _ _)
        (wm_add_pattern_shift_bound m B tbl pr.1 pr.2 j hj)
    · exact ih _ pr hpr j hj

theorem wm_build_fold_shift_other (m B : Nat) (l : List (Nat × List Nat)) :
    ∀ (tbl : WMTables) (x : Nat),
      (∀ pr ∈ l, ∀ j ≤ m - B, x ≠ block_key (pr.2.drop j) B) →
      (l.foldl (fun tbl pr => wm_add_pattern m B tbl pr.1 pr.2)
        tbl).shift_table x = tbl.shift_table x := by
  induction l with
  | nil => intro tbl x _; rfl
  | cons hd l ih =>
    intro tbl x hx
    rw [List.foldl_cons,
      ih _ x fun pr hpr => hx pr (List.mem_cons_of_mem _ hpr),
      wm_add_pattern_shift_other m B tbl hd.1 hd.2 x
        (hx hd (List.mem_cons_self _ _))]

/-- `wm_add_pattern` rewrites `next` at exactly `pid`, to the old hash
head of the pattern's suffix key. -/
theorem wm_add_pattern_next (m B : Nat) (tbl : WMTables) (pid : Nat)
    (P : List Nat) (p : Nat) :
    (wm_add_pattern m B tbl pid P).next p =
      if p = pid then tbl.hash_table (block_key (P.drop (m - B)) B)
      else tbl.next p := by
  have hfold : ∀ (l : List Nat) (t : WMTables),
      (l.foldl (wm_shift_step m B P) t).next = t.next ∧
      (l.foldl (wm_shift_step m B P) t).hash_table = t.hash_table := by
    intro l
    induction l with
    | nil => intro t; exact ⟨rfl, rfl⟩
    | cons j l ih =>
      intro t
      simp only [List.foldl_cons]
      constructor
      · rw [(ih _).1]
        simp only [wm_shift_step]
        split <;> rfl
      · rw [(ih _).2]
        simp only [wm_shift_step]
        split <;> rfl
  simp only [wm_add_pattern]
  rw [(hfold _ _).1, (hfold _ _).2]
  by_cases hp : p = pid
  · subst hp
    simp [upd_same]
  · simp [upd_other _ _ _ hp, hp]

/-- `wm_add_pattern` rewrites `hash_table` at exactly the pattern's suffix
key, to the pattern id. -/
theorem wm_add_pattern_hash (m B : Nat) (tbl : WMTables) (pid : Nat)
    (P : List Nat) (x : Nat) :
    (wm_add_pattern m B tbl pid P).hash_table x =
      if x = block_key (P.drop (m - B)) B then some pid
      else tbl.hash_table x := by
  have hfold : ∀ (l : List Nat) (t : WMTables),
      (l.foldl (wm_shift_step m B P) t).hash_table = t.hash_table := by
    intro l
    induction l with
    | nil => intro t; rfl
    | cons j l ih =>
      intro t
      simp only [List.foldl_cons]
      rw [ih]
      simp only [wm_shift_step]
      split <;> rfl
  simp only [wm_add_pattern]
  rw [hfold]
  by_cases hx : x = block_key (P.drop (m - B)) B
  · subst hx
    simp [upd_same]
  · simp [upd_other _ _ _ hx, hx]

theorem wm_chain_none (tbl : WMTables) (n : Nat) :
    wm_chain tbl none n = [] := by
  cases n <;> rfl

/-- Every id on a hash chain is bounded by the head (chains are built by
prepending, so `next` strictly decreases). -/
theorem wm_chain_le (tbl : WMTables)
    (hb : ∀ p q, tbl.next p = some q → q < p) :
    ∀ (n h pid : Nat), pid ∈ wm_chain tbl (some h) n → pid ≤ h := by
  intro n
  induction n with
  | zero => intro h pid hm; simp [wm_chain] at hm
  | succ n ih =>
    intro h pid hm
    rw [wm_chain] at hm
    rcases List.mem_cons.mp hm with rfl | hm
    · exact le_refl _
    · cases hq : tbl.next h with
      | none => rw [hq] at hm; cases n <;> simp [wm_chain] at hm
      | some q =>
        rw [hq] at hm
        exact le_trans (ih q pid hm) (le_of_lt (hb h q hq))

/-- With strictly decreasing `next` links, a chain is fully traversed by
any fuel exceeding its head, so the result does not depend on the fuel. -/
theorem wm_chain_stable (tbl : WMTables)
    (hb : ∀ p q, tbl.next p = some q → q < p) :
    ∀ (h n₁ n₂ : Nat), h < n₁ → h < n₂ →
      wm_chain tbl (some h) n₁ = wm_chain tbl (some h) n₂ := by
  intro h
  induction h using Nat.strong_induction_on with
  | _ h ih =>
    intro n₁ n₂ h1 h2
    obtain ⟨a, rfl⟩ : ∃ a, n₁ = a + 1 := ⟨n₁ - 1, by omega⟩
    obtain ⟨b, rfl⟩ : ∃ b, n₂ = b + 1 := ⟨n₂ - 1, by omega⟩
    rw [wm_chain, wm_chain]
    cases hq : tbl.next h with
    | none => cases a <;> cases b <;> simp [wm_chain]
    | some q =>
      have hqh := hb h q hq
      rw [ih q hqh a b (by omega) (by omega)]

/-- Chains only read `next` at ids bounded by the head, so two tables
agreeing there produce the same chain. -/
theorem wm_chain_congr (tbl tbl' : WMTables)
    (hb : ∀ p q, tbl.next p = some q → q < p) :
    ∀ (n h : Nat), (∀ p, p ≤ h → tbl'.next p = tbl.next p) →
      wm_chain tbl' (some h) n = wm_chain tbl (some h) n := by
  intro n
  induction n with
  | zero => intro h _; rfl
  | succ n ih =>
    intro h hag
    rw [wm_chain, wm_chain, hag h (le_refl h)]
    cases hq : tbl.next h with
    | none => rw [wm_chain_none, wm_chain_none]
    | some q =>
      exact congrArg _ (ih q fun p hp =>
        hag p (le_trans hp (le_of_lt (hb h q hq))))

/-- `wm_add_pattern` with a fresh id `k` preserves the chain invariants:
hash heads stay below the number of inserted patterns and `next` links
keep decreasing. -/
theorem wm_add_pattern_inv (m B : Nat) (tbl : WMTables) (k : Nat)
    (P : List Nat)
    (hhash : ∀ x p, tbl.hash_table x = some p → p < k)
    (hnext : ∀ p q, tbl.next p = some q → q < p) :
    (∀ x p, (wm_add_pattern m B tbl k P).hash_table x = some p → p < k + 1) ∧
    (∀ p q, (wm_add_pattern m B tbl k P).next p = some q → q < p) := by
  constructor
  · intro x p h
    rw [wm_add_pattern_hash] at h
    by_cases hx : x = block_key (P.drop (m - B)) B
    · rw [if_pos hx] at h
      have := Option.some.inj h
      omega
    · rw [if_neg hx] at h
      exact lt_trans (hhash x p h) (Nat.lt_succ_self k)
  · intro p q h
    rw [wm_add_pattern_next] at h
    by_cases hp : p = k
    · rw [if_pos hp] at h
      subst hp
      exact hhash _ _ h
    · rw [if_neg hp] at h
      exact hnext p q h

/-- Chain membership persists through the insertion of later patterns
(with strictly larger ids). -/
theorem wm_fold_chain_persist (m B count : Nat) (l : List (Nat × List Nat)) :
    ∀ (tbl : WMTables) (k pid s : Nat),
      (∀ x p, tbl.hash_table x = some p → p < k) →
      (∀ p q, tbl.next p = some q → q < p) →
      l.map Prod.fst = List.range' k l.length →
      k + l.length ≤ count →
      pid ∈ wm_chain tbl (tbl.hash_table s) count →
      pid ∈ wm_chain
        (l.foldl (fun tbl pr => wm_add_pattern m B tbl pr.1 pr.2) tbl)
        ((l.foldl (fun tbl pr => wm_add_pattern m B tbl pr.1 pr.2)
          tbl).hash_table s) count := by
  induction l with
  | nil => intro tbl k pid s _ _ _ _ hmem; exact hmem
  | cons hd tl ih =>
    rcases hd with ⟨k1, P⟩
    intro tbl k pid s hhash hnext hl hcount hmem
    rw [List.length_cons, List.range'_succ, List.map_cons] at hl
    obtain ⟨hk1, htl⟩ := List.cons.injEq .. ▸ hl
    simp only at hk1 htl
    subst hk1
    have hinv := wm_add_pattern_inv m B tbl k1 P hhash hnext
    have hmem' : pid ∈ wm_chain (wm_add_pattern m B tbl k1 P)
        ((wm_add_pattern m B tbl k1 P).hash_table s) count := by
      rcases hh : tbl.hash_table s with _ | h
      · rw [hh, wm_chain_none] at hmem
        cases hmem
      · have hhk : h < k1 := hhash s h hh
        by_cases hs : s = block_key (P.drop (m - B)) B
        · have hhash_s : (wm_add_pattern m B tbl k1 P).hash_table s =
              some k1 := by
            rw [wm_add_pattern_hash, if_pos hs]
          rw [hhash_s]
          obtain ⟨c, rfl⟩ : ∃ c, count = c + 1 := ⟨count - 1, by omega⟩
          rw [wm_chain]
          have hnexthd : (wm_add_pattern m B tbl k1 P).next k1 = some h := by
            rw [wm_add_pattern_next, if_pos rfl, ← hs, hh]
          rw [hnexthd]
          refine List.mem_cons_of_mem _ ?_
          rw [wm_chain_congr tbl _ hnext c h fun p hp => by
            rw [wm_add_pattern_next, if_neg (by omega : p ≠ k1)]]
          rw [wm_chain_stable tbl hnext h c (c + 1) (by simp at hcount; omega)
            (by omega)]
          rw [hh] at hmem
          exact hmem
        · have hhash_s : (wm_add_pattern m B tbl k1 P).hash_table s =
              some h := by
            rw [wm_add_pattern_hash, if_neg hs, hh]
          rw [hhash_s]
          rw [wm_chain_congr tbl _ hnext count h fun p hp => by
            rw [wm_add_pattern_next, if_neg (by omega : p ≠ k1)]]
          rw [hh] at hmem
          exact hmem
    have := ih (wm_add_pattern m B tbl k1 P) (k1 + 1) pid s hinv.1 hinv.2
      htl (by simp at hcount ⊢; omega) hmem'
    simpa [List.foldl_cons] using this

/-- After folding a block of patterns whose ids continue the already
inserted range, every one of them sits on the hash chain of its window
suffix key. -/
theorem wm_fold_chain_mem (m B count : Nat) (l : List (Nat × List Nat)) :
    ∀ (tbl : WMTables) (k : Nat),
      (∀ x p, tbl.hash_table x = some p → p < k) →
      (∀ p q, tbl.next p = some q → q < p) →
      l.map Prod.fst = List.range' k l.length →
      k + l.length ≤ count →
      ∀ pr ∈ l, pr.1 ∈ wm_chain
        (l.foldl (fun tbl pr => wm_add_pattern m B tbl pr.1 pr.2) tbl)
        ((l.foldl (fun tbl pr => wm_add_pattern m B tbl pr.1 pr.2)
          tbl).hash_table (block_key (pr.2.drop (m - B)) B)) count := by
  induction l with
  | nil => intro tbl k _ _ _ _ pr hpr; simp at hpr
  | cons hd tl ih =>
    rcases hd with ⟨k1, P⟩
    intro tbl k hhash hnext hl hcount pr hpr
    rw [List.length_cons, List.range'_succ, List.map_cons] at hl
    obtain ⟨hk1, htl⟩ := List.cons.injEq .. ▸ hl
    simp only at hk1 htl
    subst hk1
    have hinv := wm_add_pattern_inv m B tbl k1 P hhash hnext
    rcases List.mem_cons.mp hpr with rfl | hpr
    · have hmem' : k1 ∈ wm_chain (wm_add_pattern m B tbl k1 P)
          ((wm_add_pattern m B tbl k1 P).hash_table
            (block_key (P.drop (m - B)) B)) count := by
        have hhash_s : (wm_add_pattern m B tbl k1 P).hash_table
            (block_key (P.drop (m - B)) B) = some k1 := by
          rw [wm_add_pattern_hash, if_pos rfl]
        rw [hhash_s]
        obtain ⟨c, rfl⟩ : ∃ c, count = c + 1 := ⟨count - 1, by
          simp at hcount; omega⟩
        rw [wm_chain]
        exact List.mem_cons_self _ _
      have := wm_fold_chain_persist m B count tl
        (wm_add_pattern m B tbl k1 P) (k1 + 1) k1
        (block_key (P.drop (m - B)) B) hinv.1 hinv.2 htl
        (by simp at hcount ⊢; omega) hmem'
      simpa [List.foldl_cons] using this
    · have := ih (wm_add_pattern m B tbl k1 P) (k1 + 1) hinv.1 hinv.2 htl
        (by simp at hcount ⊢; omega) pr hpr
      simpa [List.foldl_cons] using this

/-- The block size `B` used by `wm_build_tables`. -/
def wmB (ps : PatternSet) : Nat := choose_block_size ps

/-- The window length `m = max(min_length, B)` used by `wm_build_tables`. -/
def wmM (ps : PatternSet) : Nat := max ps.min_length (choose_block_size ps)

/-- C7: after `wm_build_tables`, for every pattern `P` of the set and
every position `j ∈ [0, m-B]`, the shift entry of the `B`-byte block key
of `P[j..j+B)` is at most `m - j - B` (hence at most `m - B`); a key that
is no pattern's block keeps the default `m - B + 1`; and the block at
position `m - B` has shift 0, with the pattern's id on that key's hash
chain. -/
theorem C7_wm_table_invariants (ps : PatternSet) (pid : Nat) (P : List Nat)
    (hpid : ps.patterns.get? pid = some P) :
    (∀ j ≤ wmM ps - wmB ps,
      (wm_build_tables ps).shift_table (block_key (P.drop j) (wmB ps)) ≤
        wmM ps - j - wmB ps) ∧
    (wm_build_tables ps).shift_table
      (block_key (P.drop (wmM ps - wmB ps)) (wmB ps)) = 0 ∧
    pid ∈ wm_chain (wm_build_tables ps)
      ((wm_build_tables ps).hash_table
        (block_key (P.drop (wmM ps - wmB ps)) (wmB ps))) ps.pattern_count ∧
    (∀ x, (∀ pid' P' j, ps.patterns.get? pid' = some P' →
        j ≤ wmM ps - wmB ps → x ≠ block_key (P'.drop j) (wmB ps)) →
      (wm_build_tables ps).shift_table x = wmM ps - wmB ps + 1) := by
  have hmem : (pid, P) ∈ ps.patterns.enum :=
    List.mk_mem_enum_iff_get?.mpr hpid
  have hBle : wmB ps ≤ wmM ps := le_max_right _ _
  have hbound : ∀ j ≤ wmM ps - wmB ps,
      (wm_build_tables ps).shift_table (block_key (P.drop j) (wmB ps)) ≤
        wmM ps - j - wmB ps := by
    intro j hj
    exact wm_build_fold_shift_bound (wmM ps) (wmB ps) ps.patterns.enum _
      (pid, P) hmem j hj
  refine ⟨hbound, ?_, ?_, ?_⟩
  · have := hbound (wmM ps - wmB ps) (le_refl _)
    omega
  · have henum : ps.patterns.enum.map Prod.fst =
        List.range' 0 ps.patterns.enum.length := by
      rw [List.enum_map_fst, List.enum_length, List.range_eq_range']
    have := wm_fold_chain_mem (wmM ps) (wmB ps) ps.pattern_count
      ps.patterns.enum
      { B := wmB ps
        shift_table := fun _ => wmM ps - wmB ps + 1
        hash_table := fun _ => none
        next := fun _ => none
        prefix_hash := fun _ => 0
        pat_len := fun _ => 0 }
      0 (fun x p h => by cases h) (fun p q h => by cases h) henum
      (by simp only [List.enum_length, PatternSet.pattern_count]; omega)
      (pid, P) hmem
    exact this
  · intro x hx
    exact wm_build_fold_shift_other (wmM ps) (wmB ps) ps.patterns.enum _ x
      fun pr hpr j hj hkey =>
        hx pr.1 pr.2 j (List.mk_mem_enum_iff_get?.mp hpr) hj hkey

/-- Witness for `C7_wm_table_invariants`: the single-pattern set
`{"ab"}` with `min_length = 2` (so `B = 2`, `m = 2`). -/
theorem C7_wm_table_invariants_witness :
    ((⟨[[97, 98]], 2, 0⟩ : PatternSet).patterns.get? 0 = some [97, 98]) ∧
    ((∀ j ≤ wmM ⟨[[97, 98]], 2, 0⟩ - wmB ⟨[[97, 98]], 2, 0⟩,
      (wm_build_tables ⟨[[97, 98]], 2, 0⟩).shift_table
        (block_key (([97, 98] : List Nat).drop j) (wmB ⟨[[97, 98]], 2, 0⟩)) ≤
        wmM ⟨[[97, 98]], 2, 0⟩ - j - wmB ⟨[[97, 98]], 2, 0⟩) ∧
    (wm_build_tables ⟨[[97, 98]], 2, 0⟩).shift_table
      (block_key (([97, 98] : List Nat).drop
        (wmM ⟨[[97, 98]], 2, 0⟩ - wmB ⟨[[97, 98]], 2, 0⟩))
        (wmB ⟨[[97, 98]], 2, 0⟩)) = 0 ∧
    0 ∈ wm_chain (wm_build_tables ⟨[[97, 98]], 2, 0⟩)
      ((wm_build_tables ⟨[[97, 98]], 2, 0⟩).hash_table
        (block_key (([97, 98] : List Nat).drop
          (wmM ⟨[[97, 98]], 2, 0⟩ - wmB ⟨[[97, 98]], 2, 0⟩))
          (wmB ⟨[[97, 98]], 2, 0⟩)))
      (⟨[[97, 98]], 2, 0⟩ : PatternSet).pattern_count ∧
    (∀ x, (∀ pid' P' j, (⟨[[97, 98]], 2, 0⟩ : PatternSet).patterns.get?
          pid' = some P' →
        j ≤ wmM ⟨[[97, 98]], 2, 0⟩ - wmB ⟨[[97, 98]], 2, 0⟩ →
        x ≠ block_key (P'.drop j) (wmB ⟨[[97, 98]], 2, 0⟩)) →
      (wm_build_tables ⟨[[97, 98]], 2, 0⟩).shift_table x =
        wmM ⟨[[97, 98]], 2, 0⟩ - wmB ⟨[[97, 98]], 2, 0⟩ + 1)) :=
  ⟨rfl, C7_wm_table_invariants ⟨[[97, 98]], 2, 0⟩ 0 [97, 98] rfl⟩

/-- Two byte buffers that differ only in the case of ASCII letters. -/
def sameUpToCase (T T' : List Nat) : Prop :=
  T.length = T'.length ∧ ∀ i < T.length,
    T.getD i 0 = T'.getD i 0 ∨
    (isAlphaChar (T.getD i 0) ∧ isAlphaChar (T'.getD i 0) ∧
      toLowerChar (T.getD i 0) = toLowerChar (T'.getD i 0))

instance (T T' : List Nat) : Decidable (sameUpToCase T T') := by
  unfold sameUpToCase; infer_instance

theorem map_toLower_eq_of_sameUpToCase {T T' : List Nat}
    (h : sameUpToCase T T') : T.map toLowerChar = T'.map toLowerChar := by
  obtain ⟨hlen, hpt⟩ := h
  refine List.ext_getElem (by simp [hlen]) ?_
  intro n h1 h2
  simp only [List.getElem_map]
  have hn : n < T.length := by simpa using h1
  have hn' : n < T'.length := by simpa using h2
  have hT : T.getD n 0 = T[n] := List.getD_eq_getElem T 0 hn
  have hT' : T'.getD n 0 = T'[n] := List.getD_eq_getElem T' 0 hn'
  rcases hpt n hn with he | ⟨_, _, he⟩
  · rw [← hT, ← hT', he]
  · rw [← hT, ← hT']
    exact he

/-- The Aho–Corasick scan reads the input only through `toLowerChar`. -/
theorem acScanFrom_congr (a : AC) (lens : Nat → Nat) :
    ∀ (T T' : List Nat) (st i : Nat),
      T.map toLowerChar = T'.map toLowerChar →
      acScanFrom a lens st i T = acScanFrom a lens st i T' := by
  intro T
  induction T with
  | nil =>
    intro T' st i h
    cases T' with
    | nil => rfl
    | cons b' bs' => simp at h
  | cons b bs ih =>
    intro T' st i h
    cases T' with
    | nil => simp at h
    | cons b' bs' =>
      simp only [List.map_cons, List.cons.injEq] at h
      obtain ⟨hb, hbs⟩ := h
      rw [acScanFrom, acScanFrom]
      have hstep : acStep a st b = acStep a st b' := by
        simp only [acStep, hb]
      rw [hstep, ih bs' _ _ hbs]

/-- C10: `ac_add_pattern` folds every inserted byte and `ac_search` folds
every scanned byte through `tolower`, regardless of any `nocase` flag, so
the reported matches are invariant under changing the ASCII case of the
scanned text. -/
theorem C10_ac_case_invariant (patterns : List (List Nat))
    (T T' : List Nat) (h : sameUpToCase T T') :
    acRun patterns T = acRun patterns T' := by
  simp only [acRun]
  exact acScanFrom_congr _ _ T T' 0 0 (map_toLower_eq_of_sameUpToCase h)

/-- Witness for `C10_ac_case_invariant`: pattern set `{"a"}`, texts
`"Ab"` and `"aB"`. -/
theorem C10_ac_case_invariant_witness :
    sameUpToCase [65, 98] [97, 66] ∧
    acRun [[97]] [65, 98] = acRun [[97]] [97, 66] :=
  ⟨by decide, C10_ac_case_invariant [[97]] [65, 98] [97, 66] (by decide)⟩

/-! ### Bloom soundness and the Bloom/deterministic equivalence (C3) -/

theorem bloom_bit_iff_testBit (arr : Nat → Nat) (idx : Nat) :
    bloom_bit arr idx = true ↔
      (arr (idx >>> 3)).testBit (idx &&& 7) = true := by
  rw [bloom_bit]
  rw [Nat.one_shiftLeft, Nat.and_two_pow]
  cases h : (arr (idx >>> 3)).testBit (idx &&& 7) <;>
    simp [h, Nat.pow_eq_zero]

theorem bloom_set_step_bit (h1 h2 size : Nat) (arr : Nat → Nat) (i : Nat) :
    bloom_bit (bloom_set_step h1 h2 size arr i)
      (bloom_idx h1 h2 i size) = true := by
  rw [bloom_bit_iff_testBit]
  simp only [bloom_set_step, upd_same]
  rw [Nat.one_shiftLeft]
  simp [Nat.testBit_or, Nat.testBit_two_pow_self]

theorem bloom_set_step_mono (h1 h2 size : Nat) (arr : Nat → Nat)
    (i idx : Nat) (h : bloom_bit arr idx = true) :
    bloom_bit (bloom_set_step h1 h2 size arr i) idx = true := by
  rw [bloom_bit_iff_testBit] at h ⊢
  simp only [bloom_set_step]
  by_cases hd : idx >>> 3 = bloom_idx h1 h2 i size >>> 3
  · rw [hd, upd_same, ← hd]
    simp [Nat.testBit_or, h]
  · rw [upd_other _ _ _ hd]
    exact h

theorem bloom_fold_bit_mono (h1 h2 size : Nat) (l : List Nat) :
    ∀ (arr : Nat → Nat) (idx : Nat), bloom_bit arr idx = true →
      bloom_bit (l.foldl (bloom_set_step h1 h2 size) arr) idx = true := by
  induction l with
  | nil => intro arr idx h; exact h
  | cons i l ih =>
    intro arr idx h
    exact ih _ idx (bloom_set_step_mono h1 h2 size arr i idx h)

theorem bloom_fold_bit_self (h1 h2 size : Nat) (l : List Nat) :
    ∀ (arr : Nat → Nat) (i : Nat), i ∈ l →
      bloom_bit (l.foldl (bloom_set_step h1 h2 size) arr)
        (bloom_idx h1 h2 i size) = true := by
  induction l with
  | nil => intro arr i h; simp at h
  | cons j l ih =>
    intro arr i h
    rcases List.mem_cons.mp h with rfl | h
    · exact bloom_fold_bit_mono h1 h2 size l _ _
        (bloom_set_step_bit h1 h2 size arr i)
    · exact ih _ i h

/-- The Bloom filter has no false negative on an inserted element. -/
theorem bloom_add_check_self (bf : BloomFilter) (x : List Nat) :
    bloom_check (bloom_add bf x) x = true := by
  simp only [bloom_check, bloom_add, List.all_eq_true]
  intro i hi
  exact bloom_fold_bit_self _ _ _ _ _ i (List.mem_range.mpr
    (List.mem_range.mp hi))

/-- Inserting further elements never clears a passing check. -/
theorem bloom_check_mono_add (bf : BloomFilter) (x y : List Nat)
    (h : bloom_check bf y = true) :
    bloom_check (bloom_add bf x) y = true := by
  simp only [bloom_check, bloom_add, List.all_eq_true] at h ⊢
  intro i hi
  exact bloom_fold_bit_mono _ _ _ _ _ _ (h i hi)

theorem bloom_check_mono_fold (B : Nat) (l : List (List Nat)) :
    ∀ (bf : BloomFilter) (y : List Nat), bloom_check bf y = true →
      bloom_check
        (l.foldl (fun bf P => bloom_add bf (P.take (min P.length B))) bf)
        y = true := by
  induction l with
  | nil => intro bf y h; exact h
  | cons P l ih =>
    intro bf y h
    exact ih _ y (bloom_check_mono_add bf _ y h)

theorem wm_bloom_fold_checks (B : Nat) (l : List (List Nat)) :
    ∀ (bf : BloomFilter) (P : List Nat), P ∈ l →
      bloom_check
        (l.foldl (fun bf P => bloom_add bf (P.take (min P.length B))) bf)
        (P.take (min P.length B)) = true := by
  induction l with
  | nil => intro bf P hP; simp at hP
  | cons Q l ih =>
    intro bf P hP
    rcases List.mem_cons.mp hP with rfl | hP
    · simp only [List.foldl_cons]
      exact bloom_check_mono_fold B l _ _ (bloom_add_check_self bf _)
    · simp only [List.foldl_cons]
      exact ih _ P hP

/-- Every pattern's inserted prefix block passes the built filter. -/
theorem wm_build_bloom_checks (B size k : Nat) (patterns : List (List Nat))
    (P : List Nat) (hP : P ∈ patterns) :
    bloom_check (wm_build_bloom patterns B size k)
      (P.take (min P.length B)) = true := by
  rw [wm_build_bloom]
  exact wm_bloom_fold_checks B patterns _ P hP

/-- A passing `strncmp` over at least `B` bytes against a NUL-free
pattern of length at least `B` pins the first `B` bytes of the text. -/
theorem strncmpEq_take : ∀ (B : Nat) (a P : List Nat) (n : Nat), B ≤ n →
    B ≤ P.length → (∀ b ∈ P, b ≠ 0) → strncmpEq a P n = true →
    a.take B = P.take B := by
  intro B
  induction B with
  | zero => intro a P n _ _ _ _; simp
  | succ B ih =>
    intro a P n hBn hBL h0 h
    obtain ⟨n', rfl⟩ : ∃ n', n = n' + 1 := ⟨n - 1, by omega⟩
    cases P with
    | nil => simp at hBL
    | cons p P' =>
      have hp0 : p ≠ 0 := h0 p (List.mem_cons_self _ _)
      cases a with
      | nil =>
        simp only [strncmpEq, beq_iff_eq] at h
        exact absurd h hp0
      | cons x xs =>
        simp only [strncmpEq, Bool.and_eq_true, Bool.or_eq_true,
          beq_iff_eq] at h
        obtain ⟨rfl, hrest⟩ := h
        rcases hrest with h00 | hrec
        · exact absurd h00 hp0
        · rw [List.take_succ_cons, List.take_succ_cons,
            ih xs P' n' (by omega) (by simpa using hBL)
              (fun b hb => h0 b (List.mem_cons_of_mem _ hb)) hrec]

/-- Folding in a run of patterns with consecutive fresh ids preserves the
chain invariants. -/
theorem wm_fold_inv (m B : Nat) (l : List (Nat × List Nat)) :
    ∀ (tbl : WMTables) (k : Nat),
      (∀ x p, tbl.hash_table x = some p → p < k) →
      (∀ p q, tbl.next p = some q → q < p) →
      l.map Prod.fst = List.range' k l.length →
      (∀ x p, (l.foldl (fun tbl pr => wm_add_pattern m B tbl pr.1 pr.2)
          tbl).hash_table x = some p → p < k + l.length) ∧
      (∀ p q, (l.foldl (fun tbl pr => wm_add_pattern m B tbl pr.1 pr.2)
          tbl).next p = some q → q < p) := by
  induction l with
  | nil =>
    intro tbl k h1 h2 _
    refine ⟨fun x p h => ?_, h2⟩
    have := h1 x p h
    simpa using by omega
  | cons hd tl ih =>
    rcases hd with ⟨k1, P⟩
    intro tbl k h1 h2 hl
    rw [List.length_cons, List.range'_succ, List.map_cons] at hl
    obtain ⟨hk1, htl⟩ := List.cons.injEq .. ▸ hl
    simp only at hk1 htl
    subst hk1
    have hinv := wm_add_pattern_inv m B tbl k1 P h1 h2
    have := ih (wm_add_pattern m B tbl k1 P) (k1 + 1) hinv.1 hinv.2 htl
    refine ⟨fun x p h => ?_, this.2⟩
    have hb := this.1 x p (by simpa [List.foldl_cons] using h)
    simp only [List.length_cons]
    omega

/-- The chain invariants of the built Wu–Manber tables. -/
theorem wm_build_tables_inv (ps : PatternSet) :
    (∀ x p, (wm_build_tables ps).hash_table x = some p →
      p < ps.pattern_count) ∧
    (∀ p q, (wm_build_tables ps).next p = some q → q < p) := by
  have henum : ps.patterns.enum.map Prod.fst =
      List.range' 0 ps.patterns.enum.length := by
    rw [List.enum_map_fst, List.enum_length, List.range_eq_range']
  have := wm_fold_inv (wmM ps) (wmB ps) ps.patterns.enum
    { B := wmB ps
      shift_table := fun _ => wmM ps - wmB ps + 1
      hash_table := fun _ => none
      next := fun _ => none
      prefix_hash := fun _ => 0
      pat_len := fun _ => 0 }
    0 (fun x p h => by cases h) (fun p q h => by cases h) henum
  refine ⟨fun x p h => ?_, this.2⟩
  have := this.1 x p h
  simpa [List.enum_length, PatternSet.pattern_count] using this

/-- `wm_build_tables` keeps the chosen block size in the `B` field. -/
theorem wm_build_tables_B (ps : PatternSet) :
    (wm_build_tables ps).B = choose_block_size ps := by
  have hadd : ∀ (m B : Nat) (tbl : WMTables) (pid : Nat) (P : List Nat),
      (wm_add_pattern m B tbl pid P).B = tbl.B := by
    intro m B tbl pid P
    have hfold : ∀ (l : List Nat) (t : WMTables),
        (l.foldl (wm_shift_step m B P) t).B = t.B := by
      intro l
      induction l with
      | nil => intro t; rfl
      | cons j l ih =>
        intro t
        rw [List.foldl_cons, ih]
        simp only [wm_shift_step]
        split <;> rfl
    simp only [wm_add_pattern]
    rw [hfold]
  have hfold2 : ∀ (l : List (Nat × List Nat)) (t : WMTables),
      (l.foldl (fun tbl pr =>
        wm_add_pattern (wmM ps) (wmB ps) tbl pr.1 pr.2) t).B = t.B := by
    intro l
    induction l with
    | nil => intro t; rfl
    | cons hd tl ih =>
      intro t
      rw [List.foldl_cons, ih, hadd]
  exact hfold2 ps.patterns.enum _

/-- The scan loops of the Bloom and deterministic modes coincide as soon
as every window with a verified match passes the Bloom check. -/
theorem wm_loop_bloom_eq (text : List Nat) (ps : PatternSet)
    (tbl : WMTables) (bf : BloomFilter) (m : Nat)
    (H : ∀ i, wm_verify text ps tbl m i ≠ [] →
      bloom_check bf ((text.drop (i + 1 - m)).take tbl.B) = true) :
    ∀ (fuel i : Nat),
      wm_loop text ps tbl (some bf) m i fuel =
        wm_loop text ps tbl none m i fuel := by
  intro fuel
  induction fuel with
  | zero => intro i; rfl
  | succ fuel ih =>
    intro i
    rw [wm_loop, wm_loop]
    by_cases hn : i < text.length
    · rw [if_pos hn, if_pos hn]
      by_cases hs : 0 < tbl.shift_table
          (block_key (text.drop (i + 1 - tbl.B)) tbl.B)
      · rw [if_pos hs, if_pos hs, ih]
      · rw [if_neg hs, if_neg hs]
        cases hchk : bloom_check bf ((text.drop (i + 1 - m)).take tbl.B) with
        | true =>
          rw [ih]
          simp
        | false =>
          have hemp : wm_verify text ps tbl m i = [] := by
            by_contra hne
            rw [H i hne] at hchk
            cases hchk
          rw [hemp, List.nil_append, ih]
          simp
    · rw [if_neg hn, if_neg hn]

theorem wm_prepare_patterns_ge_two (patterns : List (List Nat)) :
    2 ≤ wm_prepare_patterns patterns 2 := by
  rw [wm_prepare_patterns]
  split <;> omega

theorem choose_block_size_le_min (ps : PatternSet)
    (h2 : 2 ≤ ps.min_length) :
    choose_block_size ps ≤ ps.min_length := by
  rw [choose_block_size]
  split_ifs with hA hB <;> omega

/-- A nonempty verification yields a chain candidate whose `strncmp`
against the window passed. -/
theorem wm_verify_mem_of_ne_nil (text : List Nat) (ps : PatternSet)
    (tbl : WMTables) (m i : Nat)
    (hne : wm_verify text ps tbl m i ≠ []) :
    ∃ pid, pid ∈ wm_chain tbl (tbl.hash_table
        (block_key (text.drop (i + 1 - tbl.B)) tbl.B)) ps.pattern_count ∧
      strncmpEq (text.drop (i + 1 - m)) (ps.pat pid) ps.min_length = true := by
  rw [wm_verify] at hne
  rcases hx : (wm_chain tbl (tbl.hash_table
      (block_key (text.drop (i + 1 - tbl.B)) tbl.B))
      ps.pattern_count).filter (fun pid =>
        tbl.prefix_hash pid ==
          hash_prefix (text.drop (i + 1 - m)) m tbl.B &&
        strncmpEq (text.drop (i + 1 - m)) (ps.pat pid) ps.min_length)
    with _ | ⟨a, t⟩
  · rw [hx] at hne
    exact absurd rfl hne
  · have ha : a ∈ (wm_chain tbl (tbl.hash_table
        (block_key (text.drop (i + 1 - tbl.B)) tbl.B))
        ps.pattern_count).filter (fun pid =>
          tbl.prefix_hash pid ==
            hash_prefix (text.drop (i + 1 - m)) m tbl.B &&
          strncmpEq (text.drop (i + 1 - m)) (ps.pat pid) ps.min_length) := by
      rw [hx]
      exact List.mem_cons_self _ _
    have hmem := List.mem_filter.mp ha
    exact ⟨a, hmem.1, (Bool.and_eq_true .. ▸ hmem.2).2⟩

/-- C3 (amended): when every pattern is at least `B` bytes long, the
Bloom-filtered Wu–Manber pipeline reports exactly the same matches as the
deterministic one, for every filter geometry: a window where the
deterministic scan verifies a match starts with the first `B` bytes of a
matched pattern, which are exactly the bytes `bloom_add` inserted, so
`bloom_check` passes and no match is lost. -/
theorem C3_bloom_equals_det (patterns : List (List Nat))
    (avg size k : Nat) (text : List Nat)
    (hlen : ∀ P ∈ patterns,
      choose_block_size ⟨patterns, wm_prepare_patterns patterns 2, avg⟩ ≤
        P.length)
    (h0 : ∀ P ∈ patterns, ∀ b ∈ P, b ≠ 0) :
    wmRunBloom patterns avg size k text = wmRunDet patterns avg text := by
  rw [wmRunBloom, wmRunDet]
  simp only [wm_search]
  set ps : PatternSet := ⟨patterns, wm_prepare_patterns patterns 2, avg⟩
    with hps
  set tbl := wm_build_tables ps with htbl
  set m := max ps.min_length tbl.B with hm
  apply wm_loop_bloom_eq
  intro i hne
  obtain ⟨pid, hchainmem, hstr⟩ := wm_verify_mem_of_ne_nil text ps tbl m i hne
  have hinv := wm_build_tables_inv ps
  have hpidlt : pid < ps.pattern_count := by
    cases hh : tbl.hash_table
        (block_key (text.drop (i + 1 - tbl.B)) tbl.B) with
    | none =>
      rw [hh, wm_chain_none] at hchainmem
      cases hchainmem
    | some hd =>
      rw [hh] at hchainmem
      have hhd : hd < ps.pattern_count := hinv.1 _ hd (htbl ▸ hh)
      have := wm_chain_le tbl (htbl ▸ hinv.2) _ hd pid hchainmem
      omega
  have hP : ps.pat pid ∈ patterns := by
    rw [PatternSet.pat]
    have hlt : pid < patterns.length := hpidlt
    rw [List.getD_eq_getElem patterns [] hlt]
    exact List.getElem_mem hlt
  have hB : tbl.B = choose_block_size ps := htbl ▸ wm_build_tables_B ps
  have h2min : 2 ≤ ps.min_length := wm_prepare_patterns_ge_two patterns
  have hBmin : tbl.B ≤ ps.min_length := by
    rw [hB]
    exact choose_block_size_le_min ps h2min
  have hBlen : tbl.B ≤ (ps.pat pid).length := by
    rw [hB]
    exact hlen _ hP
  have htake : (text.drop (i + 1 - m)).take tbl.B =
      (ps.pat pid).take tbl.B :=
    strncmpEq_take tbl.B _ _ ps.min_length hBmin hBlen (h0 _ hP) hstr
  rw [htake]
  have hmin : min (ps.pat pid).length tbl.B = tbl.B := Nat.min_eq_right hBlen
  rw [show (ps.pat pid).take tbl.B =
    (ps.pat pid).take (min (ps.pat pid).length tbl.B) by rw [hmin]]
  exact wm_build_bloom_checks tbl.B size k patterns _ hP

/-- Witness for `C3_bloom_equals_det`: `S = {"ab"}` (so `B = 2 = |P|`),
a 9-bit 6-probe filter and text `"xab"`. -/
theorem C3_bloom_equals_det_witness :
    (∀ P ∈ [[97, 98]],
      choose_block_size ⟨[[97, 98]], wm_prepare_patterns [[97, 98]] 2, 0⟩ ≤
        P.length) ∧
    (∀ P ∈ [[97, 98]], ∀ b ∈ P, b ≠ 0) ∧
    wmRunBloom [[97, 98]] 0 9 6 [120, 97, 98] =
      wmRunDet [[97, 98]] 0 [120, 97, 98] :=
  ⟨by decide, by decide,
    C3_bloom_equals_det [[97, 98]] 0 9 6 [120, 97, 98] (by decide)
      (by decide)⟩

/-! ### Bloom sizing (C8)

`bloom_init` computes `m = -(n * log(p)) / (log(2) * log(2))` and
`k = (m / n) * log(2)` in `double` arithmetic and stores them through
`(uint32_t)` casts, which truncate toward zero.  The floating-point
computation is modelled over the reals; the resulting values are far from
the rounding boundaries, so the real model matches the `double` one. -/

/-- The real value `-(n * log p) / (log 2 * log 2)` computed by
`bloom_init` for `p = 0.01`. -/
noncomputable def bloomSizeReal (n : Nat) : ℝ :=
  -(n * Real.log 0.01) / (Real.log 2 * Real.log 2)

/-- The real value `(m / n) * log 2` computed by `bloom_init`, with `m`
the untruncated real size. -/
noncomputable def bloomKReal (n : Nat) : ℝ :=
  bloomSizeReal n / n * Real.log 2

/-- `bf->size = (uint32_t)m`: truncation of the real size. -/
noncomputable def bloom_init_size (n : Nat) : Nat := ⌊bloomSizeReal n⌋₊

/-- `bf->num_hashes = (uint32_t)k`: truncation of the real hash count. -/
noncomputable def bloom_init_k (n : Nat) : Nat := ⌊bloomKReal n⌋₊

/-- `bloom_init`: the sized filter with a zeroed (calloc) byte array. -/
noncomputable def bloom_init (n : Nat) : BloomFilter :=
  bloom_empty (bloom_init_size n) (bloom_init_k n)

theorem log_hundred_eq : Real.log 100 = 7 * Real.log 2 - Real.log (32/25) := by
  have h : (100 : ℝ) = 2 ^ 7 * (25/32) := by norm_num
  rw [h, Real.log_mul (by positivity) (by norm_num), Real.log_pow,
    show ((25:ℝ)/32) = (32/25)⁻¹ by norm_num, Real.log_inv]
  push_cast
  ring

theorem log_hundred_bounds :
    (4.572 : ℝ) ≤ Real.log 100 ∧ Real.log 100 ≤ 4.6333 := by
  have h2lo := Real.log_two_gt_d9
  have h2hi := Real.log_two_lt_d9
  have hub : Real.log ((32:ℝ)/25) ≤ 32/25 - 1 :=
    Real.log_le_sub_one_of_pos (by norm_num)
  have hlb : (1 : ℝ) - 25/32 ≤ Real.log ((32:ℝ)/25) := by
    have h := Real.log_le_sub_one_of_pos (show (0:ℝ) < 25/32 by norm_num)
    have heq : Real.log ((25:ℝ)/32) = -Real.log (32/25) := by
      rw [show ((25:ℝ)/32) = ((32:ℝ)/25)⁻¹ by norm_num, Real.log_inv]
    rw [heq] at h
    linarith
  rw [log_hundred_eq]
  constructor <;> nlinarith

theorem bloomSizeReal_eq (n : Nat) :
    bloomSizeReal n = n * (Real.log 100 / (Real.log 2 * Real.log 2)) := by
  rw [bloomSizeReal,
    show (0.01 : ℝ) = (100 : ℝ)⁻¹ by norm_num, Real.log_inv]
  ring

theorem log_sq_bounds :
    (0.48 : ℝ) < Real.log 2 * Real.log 2 ∧
      Real.log 2 * Real.log 2 < 0.4805 := by
  have h2lo := Real.log_two_gt_d9
  have h2hi := Real.log_two_lt_d9
  constructor <;> nlinarith

theorem bloom_v_bounds :
    (9 : ℝ) < Real.log 100 / (Real.log 2 * Real.log 2) ∧
      Real.log 100 / (Real.log 2 * Real.log 2) < 10 := by
  have hsq := log_sq_bounds
  have hL := log_hundred_bounds
  have hpos : (0 : ℝ) < Real.log 2 * Real.log 2 := by linarith [hsq.1]
  constructor
  · rw [lt_div_iff hpos]
    nlinarith
  · rw [div_lt_iff hpos]
    nlinarith

/-- C8 (counterexample): the claim sizes the bit array with a ceiling,
but the `(uint32_t)` cast in `bloom_init` truncates: for `n = 1` the real
size is strictly between 9 and 10, the code stores 9 bits, and the
claimed ceiling is 10. -/
theorem C8_size_truncates_not_ceils :
    bloom_init_size 1 = 9 ∧ ⌈bloomSizeReal 1⌉₊ = 10 ∧
      bloom_init_size 1 ≠ ⌈bloomSizeReal 1⌉₊ := by
  have hv := bloom_v_bounds
  have heq : bloomSizeReal 1 = Real.log 100 / (Real.log 2 * Real.log 2) := by
    rw [bloomSizeReal_eq]
    push_cast
    ring
  have h9 : bloom_init_size 1 = 9 := by
    rw [bloom_init_size, Nat.floor_eq_iff (by rw [heq]; linarith [hv.1])]
    rw [heq]
    constructor
    · norm_num
      linarith [hv.1]
    · norm_num
      linarith [hv.2]
  have h10 : ⌈bloomSizeReal 1⌉₊ = 10 := by
    rw [Nat.ceil_eq_iff (by norm_num), heq]
    constructor
    · norm_num
      linarith [hv.1]
    · norm_num
      linarith [hv.2]
  exact ⟨h9, h10, by rw [h9, h10]; norm_num⟩

/-- C8 (amended): `bloom_init` with `n ≥ 1` patterns and `p = 0.01`
truncates the real size `-n·ln p/(ln 2)²` to `m_bits` bits, uses
`k = ⌊(m/n)·ln 2⌋ = 6` hash functions (with `m` the untruncated real
size), and each probe `i < k` addresses bit `(h1 + i·h2) mod m_bits` in
32-bit unsigned arithmetic, with `h1`, `h2` the FNV-1a hashes of the data
seeded `0x811C9DC5` and `0x01000193`. -/
theorem C8_bloom_parameters (n : Nat) (hn : 1 ≤ n) :
    bloom_init_size n = ⌊bloomSizeReal n⌋₊ ∧
    bloom_init_k n = 6 ∧
    (∀ (bf : BloomFilter) (data : List Nat),
      bloom_check bf data = (List.range bf.num_hashes).all fun i =>
        bloom_bit bf.bit_array
          (((fnv1a data 0x811C9DC5 + i * fnv1a data 0x01000193) % 2 ^ 32) %
            bf.size)) := by
  refine ⟨rfl, ?_, fun bf data => rfl⟩
  have hn0 : (n : ℝ) ≠ 0 := by
    simp only [ne_eq, Nat.cast_eq_zero]
    omega
  have hkeq : bloomKReal n = Real.log 100 / Real.log 2 := by
    rw [bloomKReal, bloomSizeReal_eq]
    have hl2 : Real.log 2 ≠ 0 := by
      have := Real.log_two_gt_d9
      intro h
      rw [h] at this
      norm_num at this
    field_simp
    ring
  have h2lo := Real.log_two_gt_d9
  have h2hi := Real.log_two_lt_d9
  have hL := log_hundred_bounds
  have hpos : (0 : ℝ) < Real.log 2 := by linarith
  rw [bloom_init_k, hkeq, Nat.floor_eq_iff (by positivity)]
  constructor
  · rw [le_div_iff hpos]
    push_cast
    nlinarith [hL.1, hL.2]
  · rw [div_lt_iff hpos]
    push_cast
    nlinarith [hL.1, hL.2]

/-- Witness for `C8_bloom_parameters` at `n = 1`. -/
theorem C8_bloom_parameters_witness :
    bloom_init_k 1 = 6 :=
  (C8_bloom_parameters 1 (by norm_num)).2.1

/-! ### Aho–Corasick output closure (C6)

The closure proof tracks the BFS of `ac_build` with two ghost lists: the
processed nodes `Pr` and the pending queue.  The key facts are that the
failure link of any enqueued node points at an already processed node (or
the root), and that every node merged by the BFS is fresh — so an output
list, once merged, never changes again. -/

theorem toLowerChar_lt (b : Nat) (h : b < 256) : toLowerChar b < 256 := by
  rw [toLowerChar]
  split <;> omega

theorem acKey_div (s c : Nat) (hc : c < 256) : acKey s c / 256 = s := by
  rw [acKey]
  omega

theorem acKey_zero (c : Nat) : acKey 0 c = c := by
  rw [acKey]
  omega

theorem acKey_inj (s c s' c' : Nat) (hc : c < 256) (hc' : c' < 256)
    (h : acKey s c = acKey s' c') : s = s' ∧ c = c' := by
  rw [acKey, acKey] at h
  omega

theorem acKey_ge (s c : Nat) (hs : s ≠ 0) : 256 ≤ acKey s c := by
  rw [acKey]
  omega

/-- The invariants of the trie built by `ac_add_pattern` insertions:
edges point from lower ids to fresh nonzero ids, each node has at most one
incoming edge, failure links are untouched (zero) and the root's output is
empty. -/
structure TrieInv (a : AC) : Prop where
  cnt_pos : 1 ≤ a.cnt
  edge : ∀ k t, a.trans k = some t → t ≠ 0 ∧ k / 256 < t ∧ t < a.cnt
  uniq : ∀ k k' t, a.trans k = some t → a.trans k' = some t → k = k'
  fail0 : ∀ x, a.fail x = 0
  out0 : a.out 0 = []

theorem acCreate_inv : TrieInv acCreate := by
  refine ⟨le_refl _, ?_, ?_, fun _ => rfl, rfl⟩
  · intro k t h
    cases h
  · intro k k' t h
    cases h

theorem acAddFrom_inv : ∀ (bs : List Nat) (a : AC) (st : Nat), TrieInv a →
    st < a.cnt → (∀ b ∈ bs, b < 256) →
    TrieInv (acAddFrom a st bs).1 ∧
    (acAddFrom a st bs).2 < (acAddFrom a st bs).1.cnt ∧
    a.cnt ≤ (acAddFrom a st bs).1.cnt ∧
    ((acAddFrom a st bs).2 = st ∨ (acAddFrom a st bs).2 ≠ 0) ∧
    (bs ≠ [] → (acAddFrom a st bs).2 ≠ 0) ∧
    (acAddFrom a st bs).1.fail = a.fail ∧
    (acAddFrom a st bs).1.out = a.out := by
  intro bs
  induction bs with
  | nil =>
    intro a st hInv hst _
    exact ⟨hInv, hst, le_refl _, Or.inl rfl, fun h => absurd rfl h, rfl, rfl⟩
  | cons b bs ih =>
    intro a st hInv hst hb
    have hc : toLowerChar b < 256 :=
      toLowerChar_lt b (hb b (List.mem_cons_self _ _))
    have hbs : ∀ x ∈ bs, x < 256 := fun x hx =>
      hb x (List.mem_cons_of_mem _ hx)
    simp only [acAddFrom]
    cases h : a.trans (acKey st (toLowerChar b)) with
    | some t =>
      dsimp only
      have he := hInv.edge _ _ h
      have := ih a t hInv he.2.2 hbs
      refine ⟨this.1, this.2.1, this.2.2.1, ?_, ?_, this.2.2.2.2.2.1,
        this.2.2.2.2.2.2⟩
      · rcases this.2.2.2.1 with heq | hne
        · rw [heq]
          exact Or.inr he.1
        · exact Or.inr hne
      · intro _
        rcases this.2.2.2.1 with heq | hne
        · rw [heq]
          exact he.1
        · exact hne
    | none =>
      dsimp only
      set a' : AC :=
        { a with
          trans := upd a.trans (acKey st (toLowerChar b)) (some a.cnt)
          cnt := a.cnt + 1 } with ha'
      have hInv' : TrieInv a' := by
        refine ⟨by simp only [ha']; omega, ?_, ?_, hInv.fail0, hInv.out0⟩
        · intro k t ht
          by_cases hk : k = acKey st (toLowerChar b)
          · subst hk
            rw [show a'.trans (acKey st (toLowerChar b)) = some a.cnt from
              upd_same _ _ _] at ht
            have := Option.some.inj ht
            subst this
            refine ⟨by omega, ?_, by simp only [ha']; omega⟩
            rw [acKey_div st _ hc]
            exact hst
          · rw [show a'.trans k = a.trans k from upd_other _ _ _ hk] at ht
            have := hInv.edge k t ht
            exact ⟨this.1, this.2.1, by simp only [ha']; omega⟩
        · intro k k' t hk hk'
          by_cases h1 : k = acKey st (toLowerChar b) <;>
            by_cases h2 : k' = acKey st (toLowerChar b)
          · rw [h1, h2]
          · subst h1
            rw [show a'.trans (acKey st (toLowerChar b)) = some a.cnt from
              upd_same _ _ _] at hk
            rw [show a'.trans k' = a.trans k' from upd_other _ _ _ h2] at hk'
            have := Option.some.inj hk
            subst this
            have := hInv.edge _ _ hk'
            omega
          · subst h2
            rw [show a'.trans (acKey st (toLowerChar b)) = some a.cnt from
              upd_same _ _ _] at hk'
            rw [show a'.trans k = a.trans k from upd_other _ _ _ h1] at hk
            have := Option.some.inj hk'
            subst this
            have := hInv.edge _ _ hk
            omega
          · rw [show a'.trans k = a.trans k from upd_other _ _ _ h1] at hk
            rw [show a'.trans k' = a.trans k' from upd_other _ _ _ h2] at hk'
            exact hInv.uniq k k' t hk hk'
      have hcnt' : a.cnt < a'.cnt := by
        simp only [ha']
        omega
      have := ih a' a.cnt hInv' hcnt' hbs
      refine ⟨this.1, this.2.1, by
          have := this.2.2.1
          omega, ?_, ?_, this.2.2.2.2.2.1, this.2.2.2.2.2.2⟩
      · rcases this.2.2.2.1 with heq | hne
        · rw [heq]
          exact Or.inr (by omega)
        · exact Or.inr hne
      · intro _
        rcases this.2.2.2.1 with heq | hne
        · rw [heq]
          omega
        · exact hne

theorem ac_add_pattern_inv (a : AC) (pid : Nat) (p : List Nat)
    (hInv : TrieInv a) (hb : ∀ b ∈ p, b < 256) :
    TrieInv (ac_add_pattern a pid p) ∧
    (ac_add_pattern a pid p).fail = a.fail := by
  cases p with
  | nil => exact ⟨hInv, rfl⟩
  | cons b bs =>
    have h := acAddFrom_inv (b :: bs) a 0 hInv hInv.cnt_pos hb
    have hr2 : (acAddFrom a 0 (b :: bs)).2 ≠ 0 :=
      h.2.2.2.2.1 (by simp)
    refine ⟨⟨h.1.cnt_pos, h.1.edge, h.1.uniq, fun x => h.1.fail0 x, ?_⟩, ?_⟩
    · show upd (acAddFrom a 0 (b :: bs)).1.out
        (acAddFrom a 0 (b :: bs)).2 _ 0 = []
      rw [upd_other _ _ _ (Ne.symm hr2)]
      exact h.1.out0
    · show (acAddFrom a 0 (b :: bs)).1.fail = a.fail
      exact h.2.2.2.2.2.1

theorem acOfPatterns_inv (patterns : List (List Nat))
    (hb : ∀ p ∈ patterns, ∀ b ∈ p, b < 256) :
    TrieInv (acOfPatterns patterns) ∧
    (acOfPatterns patterns).fail = fun _ => 0 := by
  rw [acOfPatterns]
  have main : ∀ (l : List (Nat × List Nat)) (a : AC), TrieInv a →
      (∀ pr ∈ l, ∀ b ∈ pr.2, b < 256) →
      TrieInv (l.foldl (fun a pr => ac_add_pattern a pr.1 pr.2) a) ∧
      (l.foldl (fun a pr => ac_add_pattern a pr.1 pr.2) a).fail = a.fail := by
    intro l
    induction l with
    | nil => intro a ha _; exact ⟨ha, rfl⟩
    | cons pr l ih =>
      intro a ha hl
      have hstep := ac_add_pattern_inv a pr.1 pr.2 ha
        (hl pr (List.mem_cons_self _ _))
      have := ih (ac_add_pattern a pr.1 pr.2) hstep.1
        (fun q hq => hl q (List.mem_cons_of_mem _ hq))
      exact ⟨this.1, by rw [List.foldl_cons, this.2, hstep.2]⟩
  have := main patterns.enum acCreate acCreate_inv ?_
  · exact ⟨this.1, by rw [this.2]; rfl⟩
  · intro pr hpr b hbmem
    exact hb pr.2 (List.get?_mem (List.mem_enum_iff_get?.mp hpr)) b hbmem

/-- Static facts about the gap-filled transition table used by the BFS:
distinct keys never share a nonzero target, and a key of a non-root row
never maps to the root. -/
structure TransOK (τ : Nat → Option Nat) : Prop where
  uniq : ∀ k k' t, τ k = some t → τ k' = some t → t ≠ 0 → k = k'
  high : ∀ k t, 256 ≤ k → τ k = some t → t ≠ 0

/-- The BFS invariant of `ac_build`, over the ghost list `Pr` of processed
nodes and the pending queue: processed and pending nodes are distinct
nonzero nodes; failure links of processed nodes point into `Pr` or at the
root; a pending node's failure link points into `Pr`, at the root, or at a
node ahead of it in the queue; output lists of reached nodes already
absorb their failure node's outputs; every child of a processed node and
every root child is reached; a reached node is a root child or a child of
a processed node; and unreached nodes still have the virgin failure link
`0`. -/
structure BFSInv (τ : Nat → Option Nat) (a : AC) (Pr queue : List Nat) :
    Prop where
  htrans : a.trans = τ
  hnodup : (Pr ++ queue).Nodup
  hne0 : ∀ x ∈ Pr ++ queue, x ≠ 0
  hfailPr : ∀ x ∈ Pr, a.fail x ∈ Pr ∨ a.fail x = 0
  hfailQ : ∀ u x v, queue = u ++ x :: v →
    a.fail x ∈ Pr ∨ a.fail x = 0 ∨ a.fail x ∈ u
  hout0 : a.out 0 = []
  hclosed : ∀ x ∈ Pr ++ queue, ∀ pid ∈ a.out (a.fail x), pid ∈ a.out x
  hchildPr : ∀ y ∈ Pr, ∀ c, c < 256 → ∀ t, τ (acKey y c) = some t →
    t ≠ 0 → t ∈ Pr ++ queue
  hchildRoot : ∀ c, c < 256 → ∀ t, τ c = some t → t ≠ 0 → t ∈ Pr ++ queue
  hEC : ∀ x ∈ Pr ++ queue, (∃ c, c < 256 ∧ τ c = some x) ∨
    (∃ y ∈ Pr, ∃ c, c < 256 ∧ τ (acKey y c) = some x)
  hfail_out : ∀ x, x ∉ Pr ++ queue → a.fail x = 0

theorem acBuildRoot_start (a : AC) (h : TrieInv a) :
    TransOK (acBuildRoot a).1.trans ∧
    BFSInv (acBuildRoot a).1.trans (acBuildRoot a).1 [] (acBuildRoot a).2 := by
  have htr : ∀ k, (acBuildRoot a).1.trans k =
      if k < 256 ∧ a.trans k = none then some 0 else a.trans k :=
    fun k => rfl
  have hedge : ∀ k t, (acBuildRoot a).1.trans k = some t → t ≠ 0 →
      a.trans k = some t := by
    intro k t hk ht
    rw [htr] at hk
    by_cases hcase : k < 256 ∧ a.trans k = none
    · rw [if_pos hcase] at hk
      exact absurd (Option.some.inj hk).symm ht
    · rwa [if_neg hcase] at hk
  have hq : ∀ x, x ∈ (acBuildRoot a).2 ↔
      ∃ c, c ∈ List.range 256 ∧ a.trans (acKey 0 c) = some x := by
    intro x
    exact List.mem_filterMap
  constructor
  · constructor
    · intro k k' t hk hk' ht
      exact h.uniq k k' t (hedge k t hk ht) (hedge k' t hk' ht)
    · intro k t hk hkt
      rw [htr, if_neg (by omega)] at hkt
      exact (h.edge k t hkt).1
  · refine ⟨rfl, ?_, ?_, ?_, ?_, h.out0, ?_, ?_, ?_, ?_, ?_⟩
    · show ((acBuildRoot a).2).Nodup
      refine List.Nodup.filterMap ?_ (List.nodup_range 256)
      intro c c' x hc hc'
      have := h.uniq _ _ x hc hc'
      rw [acKey_zero, acKey_zero] at this
      exact this
    · intro x hx
      rcases (hq x).mp hx with ⟨c, _, hcx⟩
      exact (h.edge _ _ hcx).1
    · intro x hx
      cases hx
    · intro u x v _
      exact Or.inr (Or.inl (h.fail0 x))
    · intro x hx pid hpid
      rw [show (acBuildRoot a).1.fail x = 0 from h.fail0 x] at hpid
      rw [show (acBuildRoot a).1.out 0 = [] from h.out0] at hpid
      cases hpid
    · intro y hy
      cases hy
    · intro c hc t hct ht
      have := hedge c t hct ht
      refine List.mem_append_right _ ((hq t).mpr ⟨c, List.mem_range.mpr hc, ?_⟩)
      rwa [acKey_zero]
    · intro x hx
      rcases (hq x).mp (by simpa using hx) with ⟨c, hc, hcx⟩
      rw [acKey_zero] at hcx
      refine Or.inl ⟨c, List.mem_range.mp hc, ?_⟩
      rw [htr, if_neg ?_]
      · exact hcx
      · rw [hcx]
        simp
    · intro x _
      exact h.fail0 x

theorem acFailWalk_in (a : AC) (Pr : List Nat) (c : Nat)
    (hPr : ∀ y ∈ Pr, a.fail y ∈ Pr ∨ a.fail y = 0) (h0 : a.fail 0 = 0) :
    ∀ (fuel f : Nat), f ∈ Pr ∨ f = 0 →
      acFailWalk a c f fuel ∈ Pr ∨ acFailWalk a c f fuel = 0 := by
  intro fuel
  induction fuel with
  | zero => intro f hf; exact hf
  | succ n ih =>
    intro f hf
    cases htf : a.trans (acKey f c) with
    | some t => simpa [acFailWalk, htf] using hf
    | none =>
      have : a.fail f ∈ Pr ∨ a.fail f = 0 := by
        rcases hf with hf | hf
        · exact hPr f hf
        · rw [hf, h0]
          exact Or.inr rfl
      simpa [acFailWalk, htf] using ih (a.fail f) this

/-- The invariant of `ac_build`'s inner 256-character loop while processing
node `s`: relative to the automaton `a` at loop entry, only the freshly
enqueued children `acc` have been touched, each of them is a child of `s`
on some already handled character, is fresh (outside processed ∪ queue and
nonzero), has its failure link set into processed ∪ queue ∪ {root}, and
already absorbs its failure node's outputs. -/
structure InnerInv (τ : Nat → Option Nat) (s : Nat) (a : AC)
    (Pr rest handled : List Nat) (a1 : AC) (acc : List Nat) : Prop where
  htrans : a1.trans = τ
  hfail_off : ∀ x, x ∉ acc → a1.fail x = a.fail x
  hout_off : ∀ x, x ∉ acc → a1.out x = a.out x
  hwit : ∀ x ∈ acc, ∃ c, c ∈ handled ∧ c < 256 ∧ τ (acKey s c) = some x
  hcompl : ∀ c ∈ handled, ∀ t, τ (acKey s c) = some t → t ∈ acc
  hnodup : acc.Nodup
  hfresh : ∀ x ∈ acc, x ∉ Pr ++ s :: rest ∧ x ≠ 0
  hgood : ∀ x ∈ acc, (a1.fail x ∈ Pr ++ s :: rest ∨ a1.fail x = 0) ∧
    ∀ pid ∈ a1.out (a1.fail x), pid ∈ a1.out x

theorem acChildStep_core {τ : Nat → Option Nat} {s : Nat} {a : AC}
    {Pr rest handled : List Nat} {c : Nat} {a1 : AC} {acc : List Nat}
    {nx nf : Nat} {a2 : AC}
    (htr2 : a2.trans = τ)
    (hf2 : ∀ x, a2.fail x = upd a1.fail nx nf x)
    (hout2 : a2.out = upd a1.out nx (a1.out nx ++ a1.out nf) ∨
      (a2.out = a1.out ∧ a1.out nf = []))
    (hτc : τ (acKey s c) = some nx) (hc : c < 256)
    (hnf : nf ∈ Pr ++ s :: rest ∨ nf = 0)
    (hnx_notacc : nx ∉ acc) (hnx_notE : nx ∉ Pr ++ s :: rest)
    (hnx0 : nx ≠ 0)
    (hI : InnerInv τ s a Pr rest handled a1 acc) :
    InnerInv τ s a Pr rest (handled ++ [c]) a2 (acc ++ [nx]) := by
  have hnf_ne : nf ≠ nx := by
    rcases hnf with h | h
    · intro he
      rw [he] at h
      exact hnx_notE h
    · intro he
      rw [he] at h
      exact hnx0 h
  refine ⟨htr2, ?_, ?_, ?_, ?_, ?_, ?_, ?_⟩
  · intro x hx
    have hxnx : x ≠ nx := fun he =>
      hx (List.mem_append_right _ (by rw [he]; exact List.mem_singleton_self _))
    have hxacc : x ∉ acc := fun h => hx (List.mem_append_left _ h)
    rw [hf2 x, upd_other _ _ _ hxnx]
    exact hI.hfail_off x hxacc
  · intro x hx
    have hxnx : x ≠ nx := fun he =>
      hx (List.mem_append_right _ (by rw [he]; exact List.mem_singleton_self _))
    have hxacc : x ∉ acc := fun h => hx (List.mem_append_left _ h)
    rcases hout2 with ho | ⟨ho, _⟩
    · rw [ho, upd_other _ _ _ hxnx]
      exact hI.hout_off x hxacc
    · rw [ho]
      exact hI.hout_off x hxacc
  · intro x hx
    rcases List.mem_append.mp hx with hx | hx
    · rcases hI.hwit x hx with ⟨c1, hm, hlt, hs⟩
      exact ⟨c1, List.mem_append_left _ hm, hlt, hs⟩
    · rw [List.mem_singleton.mp hx]
      exact ⟨c, List.mem_append_right _ (List.mem_singleton_self _), hc, hτc⟩
  · intro c1 hc1 t ht
    rcases List.mem_append.mp hc1 with hc1 | hc1
    · exact List.mem_append_left _ (hI.hcompl c1 hc1 t ht)
    · rw [List.mem_singleton.mp hc1] at ht
      rw [hτc] at ht
      rw [← Option.some.inj ht]
      exact List.mem_append_right _ (List.mem_singleton_self _)
  · rw [List.nodup_append]
    refine ⟨hI.hnodup, List.nodup_singleton _, ?_⟩
    intro y hy hy'
    rw [List.mem_singleton.mp hy'] at hy
    exact hnx_notacc hy
  · intro x hx
    rcases List.mem_append.mp hx with hx | hx
    · exact hI.hfresh x hx
    · rw [List.mem_singleton.mp hx]
      exact ⟨hnx_notE, hnx0⟩
  · intro x hx
    rcases List.mem_append.mp hx with hx | hx
    · have hxnx : x ≠ nx := fun he => hnx_notacc (by rw [← he]; exact hx)
      have hfx : a2.fail x = a1.fail x := by
        rw [hf2 x, upd_other _ _ _ hxnx]
      have hold := hI.hgood x hx
      have hfnenx : a1.fail x ≠ nx := by
        rcases hold.1 with h | h
        · intro he
          rw [he] at h
          exact hnx_notE h
        · intro he
          rw [he] at h
          exact hnx0 h
      constructor
      · rw [hfx]
        exact hold.1
      · intro pid hpid
        rw [hfx] at hpid
        rcases hout2 with ho | ⟨ho, _⟩
        · rw [ho, upd_other _ _ _ hfnenx] at hpid
          rw [ho, upd_other _ _ _ hxnx]
          exact hold.2 pid hpid
        · rw [ho] at hpid ⊢
          exact hold.2 pid hpid
    · rw [List.mem_singleton.mp hx]
      have hfnx : a2.fail nx = nf := by
        rw [hf2 nx, upd_same]
      constructor
      · rw [hfnx]
        exact hnf
      · intro pid hpid
        rw [hfnx] at hpid
        rcases hout2 with ho | ⟨ho, hnil⟩
        · rw [ho, upd_other _ _ _ hnf_ne] at hpid
          rw [ho, upd_same]
          exact List.mem_append_right _ hpid
        · rw [ho, hnil] at hpid
          cases hpid

theorem acChildStep_inv {τ : Nat → Option Nat} {s : Nat} {a : AC}
    {Pr rest handled : List Nat} {c : Nat} {a1 : AC} {acc : List Nat}
    (hT : TransOK τ) (hB : BFSInv τ a Pr (s :: rest))
    (hc : c < 256) (hch : c ∉ handled)
    (hI : InnerInv τ s a Pr rest handled a1 acc) :
    InnerInv τ s a Pr rest (handled ++ [c])
      (acChildStep s (a1, acc) c).1 (acChildStep s (a1, acc) c).2 := by
  have htr : a1.trans = τ := hI.htrans
  cases hτ : a1.trans (acKey s c) with
  | none =>
    have hres : acChildStep s (a1, acc) c = (a1, acc) := by
      simp only [acChildStep, hτ]
    rw [hres]
    refine ⟨hI.htrans, hI.hfail_off, hI.hout_off, ?_, ?_, hI.hnodup,
      hI.hfresh, hI.hgood⟩
    · intro x hx
      rcases hI.hwit x hx with ⟨c1, hm, hlt, hs⟩
      exact ⟨c1, List.mem_append_left _ hm, hlt, hs⟩
    · intro c1 hc1 t ht
      rcases List.mem_append.mp hc1 with hc1 | hc1
      · exact hI.hcompl c1 hc1 t ht
      · rw [List.mem_singleton.mp hc1] at ht
        rw [← htr, hτ] at ht
        cases ht
  | some nx =>
    have hτc : τ (acKey s c) = some nx := by
      rw [← htr]
      exact hτ
    have hsE : s ∈ Pr ++ s :: rest :=
      List.mem_append_right _ (List.mem_cons_self _ _)
    have hs0 : s ≠ 0 := hB.hne0 s hsE
    have hnx0 : nx ≠ 0 := hT.high _ nx (acKey_ge s c hs0) hτc
    have hoffE : ∀ x ∈ Pr ++ s :: rest, x ∉ acc := fun x hx hacc =>
      (hI.hfresh x hacc).1 hx
    have hoff0 : (0 : Nat) ∉ acc := fun hacc => (hI.hfresh 0 hacc).2 rfl
    have hsPr : s ∉ Pr := by
      rcases List.nodup_append.mp hB.hnodup with ⟨_, _, hdisj⟩
      intro hmem
      exact hdisj hmem (List.mem_cons_self _ _)
    have hPrfail1 : ∀ y ∈ Pr, a1.fail y ∈ Pr ∨ a1.fail y = 0 := by
      intro y hy
      rw [hI.hfail_off y (hoffE y (List.mem_append_left _ hy))]
      exact hB.hfailPr y hy
    have h0fail1 : a1.fail 0 = 0 := by
      rw [hI.hfail_off 0 hoff0]
      apply hB.hfail_out
      intro hmem
      exact hB.hne0 0 hmem rfl
    have hwalk : acFailWalk a1 c (a1.fail s) a1.cnt ∈ Pr ∨
        acFailWalk a1 c (a1.fail s) a1.cnt = 0 := by
      apply acFailWalk_in a1 Pr c hPrfail1 h0fail1
      rw [hI.hfail_off s (hoffE s hsE)]
      rcases hB.hfailQ [] s rest rfl with h | h | h
      · exact Or.inl h
      · exact Or.inr h
      · cases h
    have hnf : (a1.trans (acKey (acFailWalk a1 c (a1.fail s) a1.cnt) c)).getD 0
          ∈ Pr ++ s :: rest ∨
        (a1.trans (acKey (acFailWalk a1 c (a1.fail s) a1.cnt) c)).getD 0
          = 0 := by
      rw [htr]
      cases hτf : τ (acKey (acFailWalk a1 c (a1.fail s) a1.cnt) c) with
      | none => exact Or.inr rfl
      | some t =>
        by_cases ht0 : t = 0
        · exact Or.inr (by simp [ht0])
        · left
          show t ∈ Pr ++ s :: rest
          rcases hwalk with hf | hf
          · exact hB.hchildPr _ hf c hc t hτf ht0
          · rw [hf, acKey_zero] at hτf
            exact hB.hchildRoot c hc t hτf ht0
    have hnx_notacc : nx ∉ acc := by
      intro hmem
      rcases hI.hwit nx hmem with ⟨c1, hc1mem, hc1lt, hc1some⟩
      have hkey := hT.uniq _ _ nx hτc hc1some hnx0
      rw [(acKey_inj s c s c1 hc hc1lt hkey).2] at hch
      exact hch hc1mem
    have hnx_notE : nx ∉ Pr ++ s :: rest := by
      intro hmem
      rcases hB.hEC nx hmem with ⟨c0, hc0, hτ0⟩ | ⟨y, hy, c0, hc0, hτ0⟩
      · have := hT.uniq _ _ nx hτ0 hτc hnx0
        have hge := acKey_ge s c hs0
        omega
      · have hkey := hT.uniq _ _ nx hτ0 hτc hnx0
        rw [(acKey_inj y c0 s c hc0 hc hkey).1] at hy
        exact hsPr hy
    simp only [acChildStep, hτ]
    split
    next hlen =>
      exact acChildStep_core htr (fun x => rfl) (Or.inl rfl) hτc hc hnf
        hnx_notacc hnx_notE hnx0 hI
    next hlen =>
      refine acChildStep_core htr (fun x => rfl) (Or.inr ⟨rfl, ?_⟩) hτc hc hnf
        hnx_notacc hnx_notE hnx0 hI
      exact List.length_eq_zero.mp (by omega)

theorem acChildFold_inv {τ : Nat → Option Nat} {s : Nat} {a : AC}
    {Pr rest : List Nat} (hT : TransOK τ) (hB : BFSInv τ a Pr (s :: rest)) :
    ∀ (cs handled : List Nat) (a1 : AC) (acc : List Nat),
    (∀ x ∈ cs, x < 256) → (handled ++ cs).Nodup →
    InnerInv τ s a Pr rest handled a1 acc →
    InnerInv τ s a Pr rest (handled ++ cs)
      (cs.foldl (acChildStep s) (a1, acc)).1
      (cs.foldl (acChildStep s) (a1, acc)).2 := by
  intro cs
  induction cs with
  | nil =>
    intro handled a1 acc _ _ hI
    simpa using hI
  | cons c cs ih =>
    intro handled a1 acc hlt hnd hI
    have hch : c ∉ handled := by
      rcases List.nodup_append.mp hnd with ⟨_, _, hdisj⟩
      intro hmem
      exact hdisj hmem (List.mem_cons_self _ _)
    have hstep := acChildStep_inv hT hB (hlt c (List.mem_cons_self _ _)) hch hI
    have := ih (handled ++ [c]) (acChildStep s (a1, acc) c).1
      (acChildStep s (a1, acc) c).2
      (fun x hx => hlt x (List.mem_cons_of_mem _ hx))
      (by simpa using hnd) hstep
    simpa using this

theorem acProcessNode_inv {τ : Nat → Option Nat} {a : AC} {Pr : List Nat}
    {s : Nat} {rest : List Nat} (hT : TransOK τ)
    (hB : BFSInv τ a Pr (s :: rest)) :
    BFSInv τ (acProcessNode a s).1 (Pr ++ [s])
      (rest ++ (acProcessNode a s).2) := by
  have hinit : InnerInv τ s a Pr rest [] a [] :=
    ⟨hB.htrans, fun x _ => rfl, fun x _ => rfl,
      fun x hx => absurd hx (List.not_mem_nil x),
      fun c hc => absurd hc (List.not_mem_nil c),
      List.nodup_nil,
      fun x hx => absurd hx (List.not_mem_nil x),
      fun x hx => absurd hx (List.not_mem_nil x)⟩
  have hfold := acChildFold_inv hT hB (List.range 256) [] a []
    (fun x hx => List.mem_range.mp hx) (by simpa using List.nodup_range 256)
    hinit
  rw [List.nil_append] at hfold
  have hF : InnerInv τ s a Pr rest (List.range 256) (acProcessNode a s).1
      (acProcessNode a s).2 := hfold
  have hfresh := hF.hfresh
  have hoffN : ∀ x ∈ Pr ++ s :: rest, x ∉ (acProcessNode a s).2 :=
    fun x hx hn => (hfresh x hn).1 hx
  have hoff0 : (0 : Nat) ∉ (acProcessNode a s).2 :=
    fun hn => (hfresh 0 hn).2 rfl
  have hmem : ∀ z, z ∈ (Pr ++ [s]) ++ (rest ++ (acProcessNode a s).2) ↔
      z ∈ Pr ++ s :: rest ∨ z ∈ (acProcessNode a s).2 := by
    intro z
    simp only [List.mem_append, List.mem_cons, List.mem_singleton]
    tauto
  have hfE : ∀ x ∈ Pr ++ s :: rest,
      a.fail x ∈ Pr ++ s :: rest ∨ a.fail x = 0 := by
    intro x hx
    rcases List.mem_append.mp hx with hx | hx
    · rcases hB.hfailPr x hx with h | h
      · exact Or.inl (List.mem_append_left _ h)
      · exact Or.inr h
    · rcases List.append_of_mem hx with ⟨u, v, huv⟩
      rcases hB.hfailQ u x v huv with h | h | h
      · exact Or.inl (List.mem_append_left _ h)
      · exact Or.inr h
      · refine Or.inl (List.mem_append_right _ ?_)
        rw [huv]
        exact List.mem_append_left _ h
  have hfailN : ∀ x ∈ Pr ++ s :: rest,
      (acProcessNode a s).1.fail x = a.fail x := fun x hx =>
    hF.hfail_off x (hoffN x hx)
  refine ⟨hF.htrans, ?_, ?_, ?_, ?_, ?_, ?_, ?_, ?_, ?_, ?_⟩
  · rw [show (Pr ++ [s]) ++ (rest ++ (acProcessNode a s).2) =
      (Pr ++ s :: rest) ++ (acProcessNode a s).2 by simp]
    rw [List.nodup_append]
    exact ⟨hB.hnodup, hF.hnodup, fun x hx hx' => (hfresh x hx').1 hx⟩
  · intro x hx
    rcases (hmem x).mp hx with h | h
    · exact hB.hne0 x h
    · exact (hfresh x h).2
  · intro x hx
    rcases List.mem_append.mp hx with hx | hx
    · rw [hfailN x (List.mem_append_left _ hx)]
      rcases hB.hfailPr x hx with h | h
      · exact Or.inl (List.mem_append_left _ h)
      · exact Or.inr h
    · rw [List.mem_singleton.mp hx]
      rw [hfailN s (List.mem_append_right _ (List.mem_cons_self _ _))]
      rcases hB.hfailQ [] s rest rfl with h | h | h
      · exact Or.inl (List.mem_append_left _ h)
      · exact Or.inr h
      · cases h
  · intro u x v huv
    rcases List.append_eq_append_iff.mp huv with ⟨w, hu, hn⟩ | ⟨w, hr, hn⟩
    · -- u = rest ++ w, newCh = w ++ x :: v : x is a fresh child
      have hxN : x ∈ (acProcessNode a s).2 := by
        rw [hn]
        exact List.mem_append_right _ (List.mem_cons_self _ _)
      rcases (hF.hgood x hxN).1 with h | h
      · rcases List.mem_append.mp h with h | h
        · exact Or.inl (List.mem_append_left _ h)
        · rcases List.mem_cons.mp h with h | h
          · exact Or.inl (List.mem_append_right _ (by rw [h]; exact List.mem_singleton_self _))
          · refine Or.inr (Or.inr ?_)
            rw [hu]
            exact List.mem_append_left _ h
      · exact Or.inr (Or.inl h)
    · -- rest = u ++ w, x :: v = w ++ newCh
      cases w with
      | nil =>
        have hxN : x ∈ (acProcessNode a s).2 := by
          have : x :: v = (acProcessNode a s).2 := by
            rw [hn, List.nil_append]
          rw [← this]
          exact List.mem_cons_self _ _
        rcases (hF.hgood x hxN).1 with h | h
        · rcases List.mem_append.mp h with h | h
          · exact Or.inl (List.mem_append_left _ h)
          · rcases List.mem_cons.mp h with h | h
            · exact Or.inl (List.mem_append_right _ (by rw [h]; exact List.mem_singleton_self _))
            · refine Or.inr (Or.inr ?_)
              rw [hr, List.append_nil] at h
              exact h
        · exact Or.inr (Or.inl h)
      | cons x' w' =>
        have hx' : x = x' := by
          have := hn
          rw [List.cons_append] at this
          exact (List.cons.inj this).1
        subst hx'
        have hrest : rest = u ++ x :: w' := by rw [hr]
        have hxE : x ∈ Pr ++ s :: rest := by
          refine List.mem_append_right _ (List.mem_cons_of_mem _ ?_)
          rw [hrest]
          exact List.mem_append_right _ (List.mem_cons_self _ _)
        rw [hfailN x hxE]
        have hq : s :: rest = (s :: u) ++ x :: w' := by
          rw [hrest]
          rfl
        rcases hB.hfailQ (s :: u) x w' hq with h | h | h
        · exact Or.inl (List.mem_append_left _ h)
        · exact Or.inr (Or.inl h)
        · rcases List.mem_cons.mp h with h | h
          · exact Or.inl (List.mem_append_right _ (by rw [h]; exact List.mem_singleton_self _))
          · exact Or.inr (Or.inr h)
  · rw [hF.hout_off 0 hoff0]
    exact hB.hout0
  · intro x hx pid
    rcases (hmem x).mp hx with h | h
    · have hfx := hfE x h
      have hfnN : a.fail x ∉ (acProcessNode a s).2 := by
        rcases hfx with hf | hf
        · exact hoffN _ hf
        · rw [hf]
          exact hoff0
      rw [hfailN x h, hF.hout_off x (hoffN x h), hF.hout_off _ hfnN]
      exact hB.hclosed x h pid
    · exact (hF.hgood x h).2 pid
  · intro y hy c hc t ht ht0
    rcases List.mem_append.mp hy with hy | hy
    · exact (hmem t).mpr (Or.inl (hB.hchildPr y hy c hc t ht ht0))
    · have hys := List.mem_singleton.mp hy
      subst hys
      exact (hmem t).mpr (Or.inr (hF.hcompl c (List.mem_range.mpr hc) t ht))
  · intro c hc t ht ht0
    exact (hmem t).mpr (Or.inl (hB.hchildRoot c hc t ht ht0))
  · intro x hx
    rcases (hmem x).mp hx with h | h
    · rcases hB.hEC x h with h1 | ⟨y, hy, h2⟩
      · exact Or.inl h1
      · exact Or.inr ⟨y, List.mem_append_left _ hy, h2⟩
    · rcases hF.hwit x h with ⟨c, _, hclt, hcs⟩
      exact Or.inr ⟨s, List.mem_append_right _ (List.mem_singleton_self _),
        c, hclt, hcs⟩
  · intro x hx
    have hxE : x ∉ Pr ++ s :: rest := fun h => hx ((hmem x).mpr (Or.inl h))
    have hxN : x ∉ (acProcessNode a s).2 := fun h =>
      hx ((hmem x).mpr (Or.inr h))
    rw [hF.hfail_off x hxN]
    exact hB.hfail_out x hxE

theorem acBFS_closed {τ : Nat → Option Nat} (hT : TransOK τ) :
    ∀ (fuel : Nat) (a : AC) (Pr queue : List Nat), BFSInv τ a Pr queue →
    ∀ (x pid : Nat),
      pid ∈ (acBFS a queue fuel).out ((acBFS a queue fuel).fail x) →
      pid ∈ (acBFS a queue fuel).out x := by
  have base : ∀ (a : AC) (Pr queue : List Nat), BFSInv τ a Pr queue →
      ∀ (x pid : Nat), pid ∈ a.out (a.fail x) → pid ∈ a.out x := by
    intro a Pr queue hB x pid hpid
    by_cases hx : x ∈ Pr ++ queue
    · exact hB.hclosed x hx pid hpid
    · rw [hB.hfail_out x hx, hB.hout0] at hpid
      cases hpid
  intro fuel
  induction fuel with
  | zero =>
    intro a Pr queue hB x pid hpid
    have hz : acBFS a queue 0 = a := by cases queue <;> rfl
    rw [hz] at hpid ⊢
    exact base a Pr queue hB x pid hpid
  | succ n ih =>
    intro a Pr queue hB x pid hpid
    cases queue with
    | nil =>
      rw [show acBFS a [] (n + 1) = a from rfl] at hpid ⊢
      exact base a Pr [] hB x pid hpid
    | cons s rest =>
      rw [show acBFS a (s :: rest) (n + 1) =
        acBFS (acProcessNode a s).1 (rest ++ (acProcessNode a s).2) n
        from rfl] at hpid ⊢
      exact ih (acProcessNode a s).1 (Pr ++ [s])
        (rest ++ (acProcessNode a s).2) (acProcessNode_inv hT hB) x pid hpid

/-- C6: after `ac_build`, the automaton's output lists are closed under
failure links — for every node `s` and every hop count `k` along the
failure chain, each pattern id reported at the `k`-th failure ancestor of
`s` is also reported at `s` itself (the byte bound is the `unsigned char`
range of the C text). -/
theorem C6_ac_outputs_closed (patterns : List (List Nat))
    (hb : ∀ p ∈ patterns, ∀ b ∈ p, b < 256) (s k pid : Nat)
    (h : pid ∈ (ac_build (acOfPatterns patterns)).out
      (((ac_build (acOfPatterns patterns)).fail)^[k] s)) :
    pid ∈ (ac_build (acOfPatterns patterns)).out s := by
  have hTrie := (acOfPatterns_inv patterns hb).1
  obtain ⟨hT, hB⟩ := acBuildRoot_start (acOfPatterns patterns) hTrie
  have hstep : ∀ (x pid : Nat),
      pid ∈ (ac_build (acOfPatterns patterns)).out
        ((ac_build (acOfPatterns patterns)).fail x) →
      pid ∈ (ac_build (acOfPatterns patterns)).out x := by
    intro x pid hp
    exact acBFS_closed hT (acBuildRoot (acOfPatterns patterns)).1.cnt
      (acBuildRoot (acOfPatterns patterns)).1 []
      (acBuildRoot (acOfPatterns patterns)).2 hB x pid hp
  induction k generalizing s with
  | zero => exact h
  | succ n ihn =>
    rw [Function.iterate_succ_apply] at h
    exact hstep s pid (ihn ((ac_build (acOfPatterns patterns)).fail s) h)

theorem C6_ac_outputs_closed_witness :
    (∀ p ∈ [[97, 98], [98]], ∀ b ∈ p, b < 256) ∧
    1 ∈ (ac_build (acOfPatterns [[97, 98], [98]])).out
      (((ac_build (acOfPatterns [[97, 98], [98]])).fail)^[1] 2) ∧
    1 ∈ (ac_build (acOfPatterns [[97, 98], [98]])).out 2 :=
  ⟨by decide, by decide,
    C6_ac_outputs_closed [[97, 98], [98]] (by decide) 2 1 1 (by decide)⟩

end Scanner
